import Mathlib

/-!
# Verification of the mechanize-mini HTML tolerance layer

A shallow embedding of the core of `mechanize_mini.py`: the mutable element
model, the tree-building HTML parser with its formatting-recovery algorithm,
the charset detector, the CSS-subset selector engine and the form model,
together with theorems checking the natural-language specification against
this embedding.

Python token streams (what `html.parser.HTMLParser` delivers to the
tree builder) are modelled explicitly as lists of tokens; machine details
such as the `codecs` registry are passed in as an explicit lookup function.
-/

namespace MechanizeMini

/-- Python `str.casefold` / `str.lower` restricted to the ASCII range
(Lean's `Char.toLower` maps exactly the ASCII uppercase letters). -/
def pyLower (s : String) : String := String.mk (s.toList.map Char.toLower)

/-- Python `str.upper` restricted likewise to ASCII. -/
def pyUpper (s : String) : String := String.mk (s.toList.map Char.toUpper)

/-- ASCII whitespace characters used by the library's regexes. -/
def isAsciiWs (c : Char) : Bool :=
  c = ' ' || c = '\t' || c = '\r' || c = '\n' || c = '\x0c'

/-- Whitespace as stripped by Python's `str.strip()` (modelled on the ASCII
whitespace characters, which are the ones the parser can produce). -/
def isPyStripWs (c : Char) : Bool :=
  isAsciiWs c || c = '\x0b'

/-- Python `str.strip()`. -/
def pyStrip (s : String) : String :=
  (s.toList.dropWhile isPyStripWs).reverse.dropWhile isPyStripWs |>.reverse |> String.mk

/-! ## Attribute dictionaries

Python stores attributes in a `dict`; insertion keeps the position of the
first occurrence of the key and updates its value. -/

/-- Insert into an association list with Python `dict` semantics. -/
def dictInsert (l : List (String × α)) (k : String) (v : α) : List (String × α) :=
  match l with
  | [] => [(k, v)]
  | (k', v') :: rest =>
    if k' = k then (k', v) :: rest else (k', v') :: dictInsert rest k v

/-- `dict(attrs)` for a Python list of key/value pairs. -/
def dictOf (l : List (String × α)) : List (String × α) :=
  l.foldl (fun acc (kv : String × α) => dictInsert acc kv.1 kv.2) []

/-- Association-list lookup (`dict.__getitem__` / `in`). -/
def dictGet (l : List (String × α)) (k : String) : Option α :=
  match l with
  | [] => none
  | (k', v) :: rest => if k' = k then some v else dictGet rest k

/-- Remove a key (`del d[k]`). -/
def dictDel (l : List (String × α)) (k : String) : List (String × α) :=
  match l with
  | [] => []
  | (k', v) :: rest => if k' = k then rest else (k', v) :: dictDel rest k

/-! ## The element model

`HtmlElement.__init__` stores the tag verbatim, casefolds all attribute
keys, and initialises `text`, `tail` and the child list to empty. The
child list is defined mutually with the element type so that all
operations are structurally recursive.

Attribute values are `Option String`: the Python tokenizer reports
valueless attributes as `None`, and `handle_starttag`'s `<html>` branch
stores such values in the tree unchanged (every other path fixes them up
first). `HtmlElement.get` returns `None` both for a missing key and for a
stored `None`. -/

/-- An attribute dictionary as stored on an element. -/
abbrev Attrs := List (String × Option String)

mutual
inductive Elem : Type where
  | mk (tag : String) (attrib : Attrs) (text : String)
       (children : ElemList) (tail : String)
deriving DecidableEq

inductive ElemList : Type where
  | nil
  | cons (e : Elem) (es : ElemList)
deriving DecidableEq
end

namespace Elem

def tag : Elem → String | .mk t _ _ _ _ => t
def attrib : Elem → Attrs | .mk _ a _ _ _ => a
def text : Elem → String | .mk _ _ x _ _ => x
def children : Elem → ElemList | .mk _ _ _ c _ => c
def tail : Elem → String | .mk _ _ _ _ l => l

def withText (x : String) : Elem → Elem
  | .mk t a _ c l => .mk t a x c l
def withTail (x : String) : Elem → Elem
  | .mk t a s c _ => .mk t a s c x
def withChildren (c : ElemList) : Elem → Elem
  | .mk t a s _ l => .mk t a s c l
def withAttrib (a : Attrs) : Elem → Elem
  | .mk t _ s c l => .mk t a s c l

end Elem

namespace ElemList

def append (l : ElemList) (e : Elem) : ElemList :=
  match l with
  | .nil => .cons e .nil
  | .cons x xs => .cons x (append xs e)

def isEmpty : ElemList → Bool
  | .nil => true
  | .cons _ _ => false

def length : ElemList → Nat
  | .nil => 0
  | .cons _ es => es.length + 1

def toList : ElemList → List Elem
  | .nil => []
  | .cons e es => e :: toList es

def ofList : List Elem → ElemList
  | [] => .nil
  | e :: es => .cons e (ofList es)

/-- First child (`el[0]`), if any. -/
def head? : ElemList → Option Elem
  | .nil => none
  | .cons e _ => some e

/-- Last child (`el[-1]`), if any. -/
def last? : ElemList → Option Elem
  | .nil => none
  | .cons e .nil => some e
  | .cons _ (.cons e es) => last? (.cons e es)

/-- Update the last child in place. -/
def modifyLast (f : Elem → Elem) : ElemList → ElemList
  | .nil => .nil
  | .cons e .nil => .cons (f e) .nil
  | .cons e (.cons x xs) => .cons e (modifyLast f (.cons x xs))

end ElemList

/-- The attribute dictionary built by `HtmlElement.__init__` from a Python
dict: every key is casefolded (`self.attrib[key.casefold()] = val`). -/
def elemAttrs (attrs : Attrs) : Attrs :=
  attrs.foldl (fun acc kv => dictInsert acc (pyLower kv.1) kv.2) []

/-- `HtmlElement(tag, attrib)`: text and tail start empty, no children. -/
def mkElement (tag : String) (attrs : Attrs) : Elem :=
  .mk tag (elemAttrs attrs) "" .nil ""

/-- `HtmlElement.get(key)`: case-insensitive retrieval; a stored `None`
value is indistinguishable from a missing key. -/
def Elem.get (el : Elem) (key : String) : Option String :=
  (dictGet el.attrib (pyLower key)).join

/-- `HtmlElement.set`. -/
def Elem.setAttr (el : Elem) (key : String) (val : Option String) : Elem :=
  el.withAttrib (dictInsert el.attrib (pyLower key) val)

/-- `del el.attrib[key]` (callers pass already-casefolded keys). -/
def Elem.delAttr (el : Elem) (key : String) : Elem :=
  el.withAttrib (dictDel el.attrib key)

/-! ## The tree-building parser

`_TreeBuildingHTMLParser` consumes the token stream produced by Python's
`html.parser.HTMLParser` tokenizer (start tags, end tags, character
data — the tokenizer lowercases tag and attribute names itself). The
open-elements stack is modelled as a list of frames, innermost element
first; a frame holds the data of an element that is still open. Python
appends an element to its parent at `open_tag` time and merely drops it
from the stack when it is closed; here the finished element (its `tail`
is still empty at that point) is appended to the parent frame when the
frame is popped, which builds the same tree. -/

/-- A start-tag token carries attributes whose values may be `None`
(valueless attributes). -/
inductive Tok : Type where
  | start (tag : String) (attrs : Attrs)
  | endtag (tag : String)
  | data (s : String)
deriving DecidableEq

/-- An entry of the open-elements stack. -/
structure Frame : Type where
  tag : String
  attrib : Attrs
  text : String
  children : ElemList
deriving DecidableEq

/-- The element a popped frame stands for (open elements never have
acquired a `tail`, so it is empty). -/
def Frame.toElem (f : Frame) : Elem :=
  .mk f.tag f.attrib f.text f.children ""

/-- Append the element of a finished frame to its parent frame. -/
def pushChild (f g : Frame) : Frame :=
  { g with children := g.children.append f.toElem }

/-- Parser state: the open-elements stack (innermost first, the synthetic
`<html>` root last) and the active formatting list (oldest first). -/
structure PState : Type where
  stack : List Frame
  format : List (String × Attrs)
deriving DecidableEq

def initPState : PState :=
  { stack := [{ tag := "html", attrib := [], text := "", children := .nil }], format := [] }

def default_scope_els : List String :=
  ["applet", "caption", "table", "marquee", "object", "template"]
def list_scope_els : List String := default_scope_els ++ ["ol", "ul"]
def button_scope_els : List String := default_scope_els ++ ["button"]
def block_scope_els : List String :=
  default_scope_els ++ ["button", "address", "article", "aside",
    "blockquote", "center", "details", "dialog", "dir", "div", "dl",
    "fieldset", "figcaption", "figure", "footer", "header", "hgroup", "main",
    "menu", "nav", "ol", "p", "section", "summary", "ul", "h1", "h2", "h3",
    "h4", "h5", "h6", "pre", "listing", "form"]
def table_scope_els : List String := ["html", "table", "template"]
def select_scope_els : List String := ["optgroup", "option"]

def formatting_els : List String :=
  ["b", "big", "code", "em", "font", "i", "s", "small",
   "strike", "strong", "tt", "u", "a"]

/-- The tags closed immediately after opening (`self-closing tags get
closed right away`), also the set without an end tag in `outer_html`. -/
def void_els : List String :=
  ["area", "br", "embed", "img", "keygen", "wbr", "input", "param",
   "source", "track", "hr", "image", "base", "basefont", "bgsound",
   "link", "meta", "col", "frame", "menuitem"]

/-- The start tags that first close an open `<p>`. -/
def p_closing_els : List String :=
  ["address", "article", "aside", "blockquote", "center",
   "details", "dialog", "dir", "div", "dl", "fieldset", "figcaption",
   "figure", "footer", "header", "hgroup", "main", "menu", "nav",
   "ol", "p", "section", "summary", "ul", "h1", "h2", "h3", "h4",
   "h5", "h6", "pre", "listing", "form"]

/-- `has_in_scope`: walk the stack from the innermost element; found
before any scope boundary? -/
def hasInScope (stack : List Frame) (tag : String) (scope : List String) : Bool :=
  match stack with
  | [] => false
  | f :: rest =>
    if f.tag = tag then true
    else if f.tag ∈ scope then false
    else hasInScope rest tag scope

/-- `open_tag`: construct the element and push it (the zipper appends it
to the parent when it is later popped). -/
def openTag (stack : List Frame) (tag : String) (attrs : Attrs) : List Frame :=
  { tag := tag, attrib := elemAttrs attrs, text := "", children := .nil } :: stack

/-- `close_tag` body: pop elements until the given tag was popped,
keeping at least the root (`while len(self.element_stack) > 1`). -/
def closeTagGo (tag : String) (f : Frame) : List Frame → List Frame
  | [] => [f]
  | g :: rest =>
    if f.tag = tag then pushChild f g :: rest
    else closeTagGo tag (pushChild f g) rest

def closeTag (stack : List Frame) (tag : String) : List Frame :=
  match stack with
  | [] => []
  | [f] => [f]
  | f :: g :: rest => closeTagGo tag f (g :: rest)

/-- The matching pass of `restore_format_stack`: walk the stack
outermost-first against the formatting list oldest-first; return the
formatting entries that found no open element, oldest first. -/
def restoreMatch (ts : List String) (fs : List (String × Attrs)) : List (String × Attrs) :=
  match fs with
  | [] => []
  | f :: fs' =>
    match ts.dropWhile (fun t => t ≠ f.1) with
    | [] => f :: fs'
    | _ :: ts' => restoreMatch ts' fs'

/-- `restore_format_stack`: reopen every unmatched formatting entry,
oldest first. -/
def restoreFormatStack (st : PState) : PState :=
  let unmatched := restoreMatch ((st.stack.map Frame.tag).reverse) st.format
  { st with stack := unmatched.foldl (fun sk f => openTag sk f.1 f.2) st.stack }

/-- `close_formatting_tag`, one recursion step per stack frame. `f` is
the current top. If it is the sought formatter, pop it. If it is another
formatting element, pop it (it stays in the tree), recurse, and reopen
it. Otherwise detach it, recurse, move its text and children into a
fresh formatting element placed inside it, and re-attach it as an open
element. -/
def closeFmtGo (tag : String) (attrs : Attrs) (f : Frame) :
    List Frame → List Frame
  | [] => [f]
  | g :: rest =>
    if f.tag = tag then pushChild f g :: rest
    else if f.tag ∈ formatting_els then
      openTag (closeFmtGo tag attrs (pushChild f g) rest) f.tag f.attrib
    else
      let stack' := closeFmtGo tag attrs g rest
      let formatel : Elem := .mk tag (elemAttrs attrs) f.text f.children ""
      { tag := f.tag, attrib := f.attrib, text := "",
        children := ElemList.nil.append formatel } :: stack'

def closeFmt (stack : List Frame) (tag : String) (attrs : Attrs) : List Frame :=
  match stack with
  | [] => []
  | f :: rest => closeFmtGo tag attrs f rest

/-- The pop loop at the start of formatting end-tag handling: pop
formatting elements other than the sought one off the top. -/
def popFmtGo (tag : String) (f : Frame) : List Frame → List Frame
  | [] => [f]
  | g :: rest =>
    if f.tag ∈ formatting_els ∧ f.tag ≠ tag then popFmtGo tag (pushChild f g) rest
    else f :: g :: rest

def popFmtWhile (stack : List Frame) (tag : String) : List Frame :=
  match stack with
  | [] => []
  | f :: rest => popFmtGo tag f rest

/-- Pop the top frame into its parent (`self.element_stack.pop()` for an
element that stays in the tree). -/
def popTop (stack : List Frame) : List Frame :=
  match stack with
  | f :: g :: rest => pushChild f g :: rest
  | other => other

/-- Update the bottom (root) frame of the stack. -/
def modifyRoot (h : Frame → Frame) (stack : List Frame) : List Frame :=
  match stack.reverse with
  | [] => []
  | r :: rest => (h r :: rest).reverse

/-- `handle_starttag`. -/
def handleStarttag (st : PState) (tag : String) (attrs : Attrs) : PState :=
  if tag = "html" then
    -- merge the attributes into the implicit root (values not fixed up!)
    let mergeOne : Frame → String × Option String → Frame := fun r' kv =>
      { r' with attrib := dictInsert r'.attrib (pyLower kv.1) kv.2 }
    { st with stack := modifyRoot (fun r => attrs.foldl mergeOne r) st.stack }
  else
    -- fixup None attribute values: value := name
    let attrs' : Attrs := attrs.map (fun kv => (kv.1, some (kv.2.getD kv.1)))
    let ad := dictOf attrs'
    let sk := st.stack
    let sk := if tag ∈ p_closing_els ∧ hasInScope sk "p" block_scope_els then
        closeTag sk "p" else sk
    let sk := if tag ∈ ["caption", "colgroup", "tbody", "td", "tfoot", "th", "thead", "tr"]
        ∧ hasInScope sk tag ["table"] then closeTag sk tag else sk
    let sk := if tag ∈ ["dd", "dt", "li"] ∧ hasInScope sk tag ["dl", "ol", "ul"] then
        closeTag sk tag else sk
    let sk := if tag ∈ ["optgroup", "option"] ∧ hasInScope sk tag ["select"] then
        closeTag sk tag else sk
    let st' : PState :=
      if tag ∈ formatting_els then
        let st'' := restoreFormatStack { st with stack := sk }
        { st'' with format := st''.format ++ [(tag, ad)] }
      else { st with stack := sk }
    let sk' := openTag st'.stack tag ad
    let sk' := if tag ∈ void_els then closeTag sk' tag else sk'
    { st' with stack := sk' }

/-- `handle_endtag`. -/
def handleEndtag (st : PState) (tag : String) : PState :=
  if tag = "html" then st
  else
    let sk := st.stack
    let sk := if tag = "p" ∧ ¬ hasInScope sk "p" block_scope_els then
        openTag sk "p" [] else sk
    if tag ∈ ["li", "dd", "dt"] ∧ ¬ hasInScope sk tag list_scope_els then
      { st with stack := sk }
    else if tag ∈ formatting_els then
      if tag ∈ st.format.map Prod.fst then
        let sk' :=
          if tag ∈ sk.map Frame.tag then
            let sk₁ := popFmtWhile sk tag
            match sk₁ with
            | f :: _ =>
              if f.tag = tag then popTop sk₁
              else
                let attrs := ((st.format.reverse.find? (fun x => x.1 = tag)).map Prod.snd).getD []
                closeFmt sk₁ tag attrs
            | [] => sk₁
          else sk
        { stack := sk',
          format := (st.format.reverse.eraseP (fun x => x.1 = tag)).reverse }
      else { st with stack := sk }
    else
      if hasInScope sk tag default_scope_els then
        { st with stack := closeTag sk tag }
      else { st with stack := sk }

/-- `handle_data`: reconstruct the formatting list, then extend the last
child's tail, or the top's text if it has no children. -/
def handleData (st : PState) (s : String) : PState :=
  let st := restoreFormatStack st
  match st.stack with
  | [] => st
  | f :: rest =>
    let f' :=
      if f.children.isEmpty then { f with text := f.text ++ s }
      else { f with children := f.children.modifyLast (fun e => e.withTail (e.tail ++ s)) }
    { st with stack := f' :: rest }

/-- Feed one token. -/
def feedTok (st : PState) (t : Tok) : PState :=
  match t with
  | .start tag attrs => handleStarttag st tag attrs
  | .endtag tag => handleEndtag st tag
  | .data s => handleData st s

def feed (st : PState) (toks : List Tok) : PState :=
  toks.foldl feedTok st

/-- Close all still-open elements into the root (Python keeps them
attached to their parents; the zipper folds them in). -/
def foldStackGo (f : Frame) : List Frame → Frame
  | [] => f
  | g :: rest => foldStackGo (pushChild f g) rest

def foldStack : List Frame → Frame
  | [] => { tag := "html", attrib := [], text := "", children := .nil }
  | f :: rest => foldStackGo f rest

/-- `finish`: whitespace-only text before a `<head>`/`<body>` first child
is removed; the tail of a trailing `<head>`/`<body>` child is cleared
(the source guards this with `element_stack[-1].tail`, which is always
empty: open elements never acquire a tail). -/
def finish (st : PState) : Elem :=
  let headOrBody : Option Elem → Bool := fun c =>
    match c with
    | some c => c.tag = "head" || c.tag = "body"
    | none => false
  let root := (foldStack st.stack).toElem
  let root :=
    if headOrBody root.children.head? && (pyStrip root.text == "") then
      root.withText "" else root
  let root :=
    if headOrBody root.children.last? then
      root.withChildren (root.children.modifyLast (fun e => e.withTail "")) else root
  root

/-- `parsehtmlstr`, starting from the tokenizer's output. -/
def parseTokens (toks : List Tok) : Elem :=
  finish (feed initPState toks)

/-! ## Serialization

`html.escape` with and without `quote=True`; the chained `str.replace`
calls are equivalent to this single pass over the characters. Serializing
an attribute whose stored value is `None` raises in Python
(`html.escape(None)`); the serializers therefore return `Option String`,
with `none` standing for that exception. -/

def escapeChar (quote : Bool) (c : Char) : List Char :=
  if c = '&' then "&amp;".toList
  else if c = '<' then "&lt;".toList
  else if c = '>' then "&gt;".toList
  else if quote ∧ c = '"' then "&quot;".toList
  else if quote ∧ c = '\'' then "&#x27;".toList
  else [c]

/-- `html.escape(s, quote=False)`. -/
def escapeNoQ (s : String) : String :=
  String.mk (s.toList.map (escapeChar false)).flatten

/-- `html.escape(s)` (with quoting). -/
def escapeQ (s : String) : String :=
  String.mk (s.toList.map (escapeChar true)).flatten

/-- Insert a pair into a key-sorted list (used to model `sorted(...)`). -/
def insertByKey (kv : String × Option String) : Attrs → Attrs
  | [] => [kv]
  | x :: xs => if kv.1 ≤ x.1 then kv :: x :: xs else x :: insertByKey kv xs

/-- `sorted(self.items())`: attribute pairs sorted by key (keys are
unique, so the tuple comparison never reaches the values). -/
def sortedAttrs (a : Attrs) : Attrs :=
  a.foldr insertByKey []

/-- The serialized attribute list: ` key="value"` for each pair; a `None`
value makes `html.escape` raise. -/
def attrsString (a : Attrs) : Option String :=
  (sortedAttrs a).foldlM (fun acc kv =>
    match kv.2 with
    | none => none
    | some v => some (acc ++ " " ++ escapeQ kv.1 ++ "=\x22" ++ escapeQ v ++ "\x22")) ""

mutual
/-- `HtmlElement.outer_html`. -/
def outerHtml : Elem → Option String
  | .mk tag attrib text children _ => do
    let attrs ← attrsString attrib
    let inner := escapeNoQ text ++ (← childrenHtml children)
    let core := "<" ++ escapeQ tag ++ attrs ++ ">"
    if inner.length > 0 ∨ tag ∉ void_els then
      pure (core ++ inner ++ "</" ++ escapeQ tag ++ ">")
    else
      pure core

/-- The child part of `inner_html`: each child's `outer_html` followed by
its escaped tail. -/
def childrenHtml : ElemList → Option String
  | .nil => some ""
  | .cons c cs => do
    pure ((← outerHtml c) ++ escapeNoQ c.tail ++ (← childrenHtml cs))
end

/-- `HtmlElement.inner_html`. -/
def innerHtml (el : Elem) : Option String := do
  pure (escapeNoQ el.text ++ (← childrenHtml el.children))

mutual
/-- `HtmlElement.outer_xml`: an empty element is self-closed. -/
def outerXml : Elem → Option String
  | .mk tag attrib text children _ => do
    let attrs ← attrsString attrib
    let inner := escapeNoQ text ++ (← childrenXml children)
    if inner.length > 0 then
      pure ("<" ++ escapeQ tag ++ attrs ++ ">" ++ inner ++ "</" ++ escapeQ tag ++ ">")
    else
      pure ("<" ++ escapeQ tag ++ attrs ++ " />")

/-- The child part of `inner_xml`. -/
def childrenXml : ElemList → Option String
  | .nil => some ""
  | .cons c cs => do
    pure ((← outerXml c) ++ escapeNoQ c.tail ++ (← childrenXml cs))
end

/-- `HtmlElement.inner_xml`. -/
def innerXml (el : Elem) : Option String := do
  pure (escapeNoQ el.text ++ (← childrenXml el.children))

/-! ## Element traversal and text extraction -/

mutual
/-- `HtmlElement.iter()` with no tag filter: the element and all its
descendants, depth-first pre-order. -/
def iterElems : Elem → List Elem
  | .mk t a s c l => .mk t a s c l :: iterList c

def iterList : ElemList → List Elem
  | .nil => []
  | .cons e es => iterElems e ++ iterList es
end

mutual
/-- `HtmlElement.itertext()`: the element's `text` if non-empty, then for
every child its texts followed by its `tail` if non-empty. -/
def iterText : Elem → List String
  | .mk _ _ s c _ => (if s ≠ "" then [s] else []) ++ iterTextList c

def iterTextList : ElemList → List String
  | .nil => []
  | .cons e es =>
    (iterText e ++ (if e.tail ≠ "" then [e.tail] else [])) ++ iterTextList es
end

/-- `re.split('[ \t\r\n\f]+', t)` with the empty pieces dropped: the
maximal runs of non-whitespace characters. -/
def wsChunks (s : String) : List String :=
  ((s.toList.splitOnP isAsciiWs).map String.mk).filter (fun x => x ≠ "")

/-- `HtmlElement.text_content`: every fragment of `itertext()` is split
on ASCII whitespace and the non-empty pieces of all fragments are joined
with single spaces. -/
def textContent (el : Elem) : String :=
  String.intercalate " " ((iterText el).map wsChunks).flatten

/-- Modelled from the spec: `normalise_ws` "splits on `[ \t\r\n\f]+` and
joins with single spaces, trimming" — applied to one string. -/
def normaliseWs (s : String) : String :=
  String.intercalate " " (wsChunks s)

/-! ## Variant dispatch and the input/option/form model

`HtmlElement.__new__` picks the class from the lowercased tag; the
`value`/`checked`/`type` accessors below follow the class the dispatch
would have picked. -/

/-- Python `x or y` for strings: `x` unless it is empty. -/
def pyOrStr (x d : String) : String := if x = "" then d else x

/-- Python `self.get(k) or d`: `None` and the empty string both fall back. -/
def pyOr (v : Option String) (d : String) : String :=
  match v with
  | none => d
  | some s => pyOrStr s d

/-- `isinstance(x, HtmlInputElement)`: input, textarea and select. -/
def isInputVariant (el : Elem) : Bool :=
  pyLower el.tag = "input" || pyLower el.tag = "textarea" || pyLower el.tag = "select"

/-- `HtmlInputElement.type` (with the `HtmlSelectElement` and
`HtmlTextareaElement` overrides). -/
def inputType (el : Elem) : String :=
  if pyLower el.tag = "select" then "select"
  else if pyLower el.tag = "textarea" then "textarea"
  else pyStrip (pyLower (pyOr (el.get "type") "text"))

/-- `HtmlInputElement.name`. -/
def inputName (el : Elem) : Option String := el.get "name"

/-- `HtmlInputElement.enabled`. -/
def inputEnabled (el : Elem) : Bool := el.get "disabled" = none

/-- `HtmlInputElement.checked` (false for non-check-capable types). -/
def inputChecked (el : Elem) : Bool :=
  if inputType el = "checkbox" || inputType el = "radio" then
    (el.get "checked").isSome
  else false

/-- `HtmlOptionElement.value`: the `value` attribute unless missing or
empty, else the element's text. -/
def optionValue (el : Elem) : String := pyOr (el.get "value") el.text

/-- `HtmlOptionElement.selected`. -/
def optionSelected (el : Elem) : Bool := (el.get "selected").isSome

/-- `HtmlInputElement.value` for inputs that are not select elements
(`<select>` has its own override; `get_formdata` never calls it). -/
def inputValue (el : Elem) : String :=
  if pyLower el.tag = "textarea" then el.text
  else if inputType el = "radio" || inputType el = "checkbox" then
    pyOr (el.get "value") "on"
  else pyOr (el.get "value") ""

/-- `HtmlSelectElement.options`: all `<option>` descendants in document
order (`query_selector_all('option')` with a bare tag selector yields
exactly the descendants whose casefolded tag is `option`). -/
def optionsOf (el : Elem) : List Elem :=
  (iterList el.children).filter (fun e => pyLower e.tag = "option")

/-- `HtmlFormElement.elements`: the input-like elements among
`self.iter()` in document order. -/
def formInputs (form : Elem) : List Elem :=
  (iterElems form).filter isInputVariant

/-- The inputs `set_field`/`get_field` work on: those whose `name`
attribute equals the given name. -/
def namedInputs (form : Elem) (name : String) : List Elem :=
  (formInputs form).filter (fun e => inputName e = some name)

/-- `HtmlFormElement.get_formdata()`. -/
def getFormdata (form : Elem) : List (String × String) :=
  (formInputs form).foldr (fun i acc =>
    if ¬ inputEnabled i then acc
    else if pyOr (inputName i) "" = "" then acc
    else
      let nm := pyOr (inputName i) ""
      if inputType i = "radio" || inputType i = "checkbox" then
        if inputChecked i then (nm, pyOrStr (inputValue i) "on") :: acc else acc
      else if pyLower i.tag = "select" then
        ((optionsOf i).filter optionSelected).map (fun o => (nm, pyOrStr (optionValue o) ""))
          ++ acc
      else (nm, pyOrStr (inputValue i) "") :: acc) []

/-- `HtmlFormElement.accept_charset`: resolve the `accept-charset`
attribute through the registry; the fallbacks are the document charset
(for an attached form; no document is modelled here) and `utf-8`. -/
def acceptCharset (lookup : String → Option String) (form : Elem) : String :=
  let a := pyOr (form.get "accept-charset") ""
  if a ≠ "" then
    match lookup a with
    | some name => name
    | none => "utf-8"
  else "utf-8"

/-! ## URL encoding of form data

`urllib.parse.urlencode` on byte pairs percent-encodes with
`quote_plus`: bytes in the always-safe set stay themselves, a space
becomes `+`, anything else becomes `%XX` with uppercase hex. -/

def hexDigitU (n : Nat) : Char :=
  if n < 10 then Char.ofNat ('0'.toNat + n) else Char.ofNat ('A'.toNat + n - 10)

def isUrlSafeByte (b : UInt8) : Bool :=
  (65 ≤ b && b ≤ 90) || (97 ≤ b && b ≤ 122) || (48 ≤ b && b ≤ 57) ||
  b = 95 || b = 46 || b = 45 || b = 126

/-- `urllib.parse.quote_plus` over raw bytes. -/
def quotePlus (bs : List UInt8) : String :=
  String.join (bs.map (fun b =>
    if b = 32 then "+"
    else if isUrlSafeByte b then String.mk [Char.ofNat b.toNat]
    else String.mk ['%', hexDigitU (b.toNat / 16), hexDigitU (b.toNat % 16)]))

/-- UTF-8 encoding of one character (Python `str.encode('utf-8')`). -/
def utf8Bytes (c : Char) : List UInt8 :=
  let n := c.toNat
  if n < 0x80 then [UInt8.ofNat n]
  else if n < 0x800 then
    [UInt8.ofNat (0xC0 + n / 64), UInt8.ofNat (0x80 + n % 64)]
  else if n < 0x10000 then
    [UInt8.ofNat (0xE0 + n / 4096), UInt8.ofNat (0x80 + n / 64 % 64),
     UInt8.ofNat (0x80 + n % 64)]
  else
    [UInt8.ofNat (0xF0 + n / 262144), UInt8.ofNat (0x80 + n / 4096 % 64),
     UInt8.ofNat (0x80 + n / 64 % 64), UInt8.ofNat (0x80 + n % 64)]

/-- Python `s.encode(charset)`; only the UTF-8 codec is modelled (the
claims under verification only submit under `utf-8`). Other charsets are
`none`. -/
def pyEncode (charset : String) (s : String) : Option (List UInt8) :=
  if charset = "utf-8" then some (s.toList.map utf8Bytes).flatten else none

/-- `HtmlFormElement.get_formdata_query()`: percent-encode every name and
value as bytes under `accept_charset` and join as `k=v&k=v`. -/
def getFormdataQuery (lookup : String → Option String) (form : Elem) : Option String := do
  let charset := acceptCharset lookup form
  let parts ← (getFormdata form).mapM (fun nv => do
    pure (quotePlus (← pyEncode charset nv.1) ++ "=" ++ quotePlus (← pyEncode charset nv.2)))
  pure (String.intercalate "&" parts)

/-! ## The CSS-subset selector engine -/

/-- Python `s.split()` with no argument: split on whitespace runs. -/
def pySplit (s : String) : List String :=
  ((s.toList.splitOnP isPyStripWs).map String.mk).filter (fun x => x ≠ "")

/-- `HtmlElement.class_list` (as a list; Python wraps it in a set, the
matcher only tests membership). -/
def classList (el : Elem) : List String := pySplit (pyOr (el.get "class") "")

/-- `_matcher_tagname`: casefolded comparison. -/
def matcherTagname (tag : String) (el : Elem) : Bool :=
  pyLower el.tag = pyLower tag

/-- `_matcher_class`. -/
def matcherClass (classname : String) (el : Elem) : Bool :=
  classname ∈ classList el

/-- `_matcher_id`: `el.id == id`, an exact comparison of the attribute
value (`None` never equals a string). -/
def matcherId (idv : String) (el : Elem) : Bool :=
  el.get "id" = some idv

/-- Python `needle in hay` for strings. -/
def strContains (hay needle : List Char) : Bool :=
  match hay with
  | [] => needle.isEmpty
  | _ :: t => needle.isPrefixOf hay || strContains t needle

/-- `_matcher_contains`: substring test on `text_content`. -/
def matcherContains (t : String) (el : Elem) : Bool :=
  strContains (textContent el).toList t.toList

abbrev TMatcher := Elem → Bool
abbrev TSelector := Elem → List Elem

/-- `_chain_selector`. -/
def chainSelector (a b : TSelector) : TSelector := fun el => (a el).flatMap b

/-- `lambda el: el` used as a selector start: iterating an element yields
its children. -/
def childIterSelector : TSelector := fun el => (el.children).toList

mutual
/-- `_descendant_or_self_selector`. -/
def descOrSelf (m : TMatcher) : Elem → List Elem
  | .mk t a s c l =>
    let el := Elem.mk t a s c l
    (if m el then [el] else []) ++ descOrSelfList m c

def descOrSelfList (m : TMatcher) : ElemList → List Elem
  | .nil => []
  | .cons e es => descOrSelf m e ++ descOrSelfList m es
end

/-- `_descendant_selector`. -/
def descendantSelector (m : TMatcher) : TSelector :=
  chainSelector childIterSelector (descOrSelf m)

/-- `_immediate_child_selector`. -/
def immediateChildSelector (m : TMatcher) : TSelector := fun el =>
  (el.children.toList).filter m

/-- `_uniqueify_selector`; Python deduplicates by object identity, which
is modelled by structural equality keeping the first occurrence. -/
def uniqFirst (seen : List Elem) : List Elem → List Elem
  | [] => []
  | x :: xs => if x ∈ seen then uniqFirst seen xs else x :: uniqFirst (x :: seen) xs

def uniqueifySelector (s : TSelector) : TSelector := fun el => uniqFirst [] (s el)

/-- `_matcher_and`. -/
def matcherAnd (a : Option TMatcher) (b : TMatcher) : TMatcher :=
  match a with
  | some a => fun el => a el && b el
  | none => b

/-- The character class `[\w_-]` of the selector tokenizer (`\w` is
modelled on its ASCII subset). -/
def selWordChar (c : Char) : Bool :=
  c.isAlphanum || c = '_' || c = '-'

/-- Whitespace for the selector's `\s`. -/
def selWs (c : Char) : Bool := isPyStripWs c

/-- Which generator the next committed matcher uses. -/
inductive SelGen : Type where
  | dos    -- `_descendant_or_self_selector` (initial)
  | desc   -- `_descendant_selector`
  | child  -- `_immediate_child_selector`
deriving DecidableEq

def applyGen : SelGen → TMatcher → TSelector
  | .dos => descOrSelf
  | .desc => descendantSelector
  | .child => immediateChildSelector

/-- `InvalidSelectorError`. -/
inductive SelErr : Type where
  | invalidSelector
deriving DecidableEq

/-- One pass of the `_build_css_selector` loop, fuel-bounded (every
iteration consumes at least one character). `committed` records whether
`sel` is still the `start` selector (Python compares identities). -/
def buildLoop (fuel : Nat) (cs : List Char) (gen : SelGen) (sel : TSelector)
    (committed : Bool) (matcher : Option TMatcher) : Except SelErr (TSelector × Bool) :=
  match fuel with
  | 0 => .error .invalidSelector
  | fuel + 1 =>
    match cs with
    | [] =>
      match matcher with
      | some m => .ok (chainSelector sel (applyGen gen m), true)
      | none => .ok (sel, committed)
    | '*' :: rest =>
      buildLoop fuel rest gen sel committed (some (matcherAnd matcher (fun _ => true)))
    | c :: rest =>
      if selWordChar c then
        -- tag selector
        let name := String.mk (c :: rest.takeWhile selWordChar)
        buildLoop fuel (rest.dropWhile selWordChar) gen sel committed
          (some (matcherAnd matcher (matcherTagname name)))
      else if c = '.' ∧ (rest.takeWhile selWordChar) ≠ [] then
        let name := String.mk (rest.takeWhile selWordChar)
        buildLoop fuel (rest.dropWhile selWordChar) gen sel committed
          (some (matcherAnd matcher (matcherClass name)))
      else if c = '#' ∧ (rest.takeWhile selWordChar) ≠ [] then
        let name := String.mk (rest.takeWhile selWordChar)
        buildLoop fuel (rest.dropWhile selWordChar) gen sel committed
          (some (matcherAnd matcher (matcherId name)))
      else if (c :: rest).take 10 = ":contains(".toList then
        let after := (c :: rest).drop 10
        match after with
        | '"' :: qrest =>
          -- `"([^\"]+)"` followed by `)`
          let inner := qrest.takeWhile (fun x => x ≠ '"')
          if inner ≠ [] ∧ (qrest.drop inner.length).take 2 = ['"', ')'] then
            buildLoop fuel (qrest.drop (inner.length + 2)) gen sel committed
              (some (matcherAnd matcher (matcherContains (String.mk inner))))
          else .error .invalidSelector
        | other =>
          -- `([^\")]+)` followed by `)`
          let inner := other.takeWhile (fun x => x ≠ '"' ∧ x ≠ ')')
          if inner ≠ [] ∧ (other.drop inner.length).take 1 = [')'] then
            buildLoop fuel (other.drop (inner.length + 1)) gen sel committed
              (some (matcherAnd matcher (matcherContains (String.mk inner))))
          else .error .invalidSelector
      else
        -- `\s*\>\s*` (child), then `\s+` (descendant); both only when a
        -- matcher is pending
        let ws := (c :: rest).takeWhile selWs
        let afterWs := (c :: rest).dropWhile selWs
        match matcher with
        | some m =>
          match afterWs with
          | '>' :: arest =>
            buildLoop fuel (arest.dropWhile selWs) .child
              (chainSelector sel (applyGen gen m)) true none
          | _ =>
            if ws ≠ [] then
              buildLoop fuel afterWs .desc (chainSelector sel (applyGen gen m)) true none
            else .error .invalidSelector
        | none => .error .invalidSelector

/-- `_build_css_selector`. -/
def buildCssSelector (start : TSelector) (s : String) : Except SelErr TSelector := do
  let (sel, committed) ← buildLoop (s.toList.length + 1) s.toList .dos start false none
  if committed then pure (uniqueifySelector sel)
  else pure (fun _ => [])

/-- The value returned by calling the generator function
`HtmlElement.query_selector_all`: the body has not run — no selector has
been compiled, no element inspected. -/
structure QsaGen : Type where
  el : Elem
  sel : String
deriving DecidableEq

/-- Calling `query_selector_all(sel)` only suspends the body. -/
def querySelectorAllCall (el : Elem) (sel : String) : QsaGen := ⟨el, sel⟩

/-- Advancing the returned generator runs the body: compile the selector
(starting from `lambda el: el`), then traverse. -/
def qsaForce (g : QsaGen) : Except SelErr (List Elem) := do
  let selector ← buildCssSelector childIterSelector g.sel
  pure (selector g.el)

/-! ## `set_field` -/

inductive FormErr : Type where
  | unsupportedForm
  | inputNotFound
deriving DecidableEq

/-- Selected-state rewrite of `HtmlOptionCollection.set_selected([v])` on
every option of a subtree (the collection holds exactly the
option-tagged descendants). -/
def setSelectedAttr (v : String) (el : Elem) : Elem :=
  if pyLower el.tag = "option" then
    if optionValue el = v then el.setAttr "selected" (some "selected")
    else if (el.get "selected").isSome then el.delAttr "selected"
    else el
  else el

mutual
/-- Map a node rewrite over a whole subtree; the rewrites used here only
touch tag, attributes, text and tail, so the recursion descends into the
original children. -/
def mapTree (f : Elem → Elem) : Elem → Elem
  | .mk t a s c l =>
    let el' := f (Elem.mk t a s c l)
    .mk el'.tag el'.attrib el'.text (mapTreeList f c) el'.tail

def mapTreeList (f : Elem → Elem) : ElemList → ElemList
  | .nil => .nil
  | .cons e es => .cons (mapTree f e) (mapTreeList f es)
end

/-- `inputs[0].value = value` for the unique input with the given name
(the `HtmlInputElement` / `HtmlTextareaElement` / `HtmlSelectElement`
setter, keyed by variant). Sound because the caller has checked there is
exactly one such input. -/
def setSingleValue (name value : String) (form : Elem) : Elem :=
  mapTree (fun el =>
    if isInputVariant el ∧ inputName el = some name then
      if pyLower el.tag = "select" then el  -- options rewritten below
      else if pyLower el.tag = "textarea" then el.withText value
      else el.setAttr "value" (some value)
    else el) form

mutual
/-- The `<select>` variant of the assignment: rewrite the selected marks
of the options inside the (unique) matching select element. -/
def setSingleSelect (name value : String) : Elem → Elem
  | .mk t a s c l =>
    let el := Elem.mk t a s c l
    if isInputVariant el ∧ inputName el = some name ∧ pyLower el.tag = "select" then
      el.withChildren (mapTreeList (setSelectedAttr value) c)
    else
      el.withChildren (setSingleSelectList name value c)

def setSingleSelectList (name value : String) : ElemList → ElemList
  | .nil => .nil
  | .cons e es => .cons (setSingleSelect name value e) (setSingleSelectList name value es)
end

/-- The per-element rewrite of the clearing loop: `del
i.attrib['checked']` guarded by `i.get('checked') is not None`, applied
to the inputs of the group. -/
def clearStep (name : String) (e : Elem) : Elem :=
  if isInputVariant e ∧ inputName e = some name ∧ (e.get "checked").isSome
  then e.delAttr "checked" else e

/-- Clear `checked` on every input of the group. -/
def clearChecked (name : String) (form : Elem) : Elem :=
  mapTree (clearStep name) form

mutual
/-- `withval[0].set('checked', 'checked')`: mark the first input (in
document order) of the group whose `value` attribute equals the sought
value. -/
def markFirstE (name value : String) (done : Bool) : Elem → Elem × Bool
  | .mk t a s c l =>
    let el := Elem.mk t a s c l
    if ¬ done ∧ isInputVariant el ∧ inputName el = some name
        ∧ el.get "value" = some value then
      (el.setAttr "checked" (some "checked"), true)
    else
      let (c', d') := markFirstL name value done c
      (Elem.mk t a s c' l, d')

def markFirstL (name value : String) (done : Bool) : ElemList → ElemList × Bool
  | .nil => (.nil, done)
  | .cons e es =>
    let (e', d') := markFirstE name value done e
    let (es', d'') := markFirstL name value d' es
    (.cons e' es', d'')
end

/-- The tag/attribute skeleton of an element: every accessor `set_field`
consults (variant, name, type, value, checked) only reads it. -/
def skel (e : Elem) : Elem := .mk e.tag e.attrib "" .nil ""

/-- The list-level counterpart of `markFirstE`: mark the first entry of
the skeleton listing whose value attribute matches. -/
def markList (name value : String) (done : Bool) : List Elem → List Elem × Bool
  | [] => ([], done)
  | e :: es =>
    if ¬ done ∧ isInputVariant e ∧ inputName e = some name
        ∧ e.get "value" = some value then
      (e.setAttr "checked" (some "checked") :: es, true)
    else
      let (es', d') := markList name value done es
      (e :: es', d')

/-- `HtmlFormElement.set_field(name, value)`. -/
def setFieldE (form : Elem) (name value : String) : Except FormErr Elem :=
  let inputs := namedInputs form name
  if inputs.length > 1 then
    if inputs.any (fun x => inputType x ≠ "radio") then .error .unsupportedForm
    else if inputs.any (fun x => x.get "value" = some value) then
      .ok (markFirstE name value false (clearChecked name form)).1
    else .error .unsupportedForm
  else
    match inputs with
    | [i] =>
      if pyLower i.tag = "select" then
        if value ∈ (optionsOf i).map optionValue then
          .ok (setSingleSelect name value form)
        else .error .unsupportedForm
      else .ok (setSingleValue name value form)
    | _ => .error .inputNotFound

/-! ## Charset detection

`_CharsetDetectingHTMLParser` only watches start tags; its input is the
start-tag stream the tokenizer produces from the ASCII-decoded bytes.
The `codecs` registry is an explicit parameter mapping a label to its
canonical name (`codecs.lookup(label).name`), `none` for `LookupError`.
A `.error ()` result models an uncaught Python exception
(`None.lower()` on a valueless `http-equiv`/`content` attribute). -/

abbrev StartTag := String × Attrs

/-- Python `'charset=' in s` and `s.split('charset=')[-1]`. -/
def afterLastCharsetEq (s : List Char) : Option (List Char) :=
  match s with
  | [] => none
  | c :: rest =>
    match afterLastCharsetEq rest with
    | some r => some r
    | none =>
      if (c :: rest).take 8 = "charset=".toList then some ((c :: rest).drop 8)
      else none

/-- One `handle_starttag` of `_CharsetDetectingHTMLParser`. -/
def charsetStep (lookup : String → Option String) (st : Option String)
    (tok : StartTag) : Except Unit (Option String) := do
  if st.isSome then pure st
  else
    let ad := dictOf tok.2
    let cs : Except Unit (Option String) :=
      if tok.1 = "meta" then
        match dictGet ad "charset" with
        | some v => .ok v  -- may be a stored None
        | none =>
          match dictGet ad "http-equiv", dictGet ad "content" with
          | some he, some co =>
            match he with
            | none => .error ()  -- None.lower() raises AttributeError
            | some he' =>
              if pyLower he' = "content-type" then
                match co with
                | none => .error ()  -- None.lower() raises AttributeError
                | some co' =>
                  match afterLastCharsetEq (pyLower co').toList with
                  | some r => .ok (some (pyStrip (String.mk r)))
                  | none => .ok none
              else .ok none
          | _, _ => .ok none
      else .ok none
    let c ← cs
    -- validation: unknown labels are dropped, UTF-16 becomes UTF-8
    match c with
    | none => pure none
    | some label =>
      match lookup label with
      | none => pure none
      | some nm => pure (some (if nm.startsWith "utf-16" then "utf-8" else label))

/-- The full meta scan (`parser.feed`): fold over the start tags. -/
def metaScan (lookup : String → Option String) (toks : List StartTag) :
    Except Unit (Option String) :=
  toks.foldlM (charsetStep lookup) none

/-- Byte-level matcher for the XML-declaration regex
`<\?xml[ \t\r\n]+version=(['\"])1.0\1[ \t\r\n]+encoding=(['\"])([a-zA-Z0-9_\-]+)\2`
(note that the unescaped `.` matches any byte except a newline). -/
def isXmlWsB (b : UInt8) : Bool := b = 32 || b = 9 || b = 13 || b = 10

def isEncChar (b : UInt8) : Bool :=
  (65 ≤ b && b ≤ 90) || (97 ≤ b && b ≤ 122) || (48 ≤ b && b ≤ 57) || b = 95 || b = 45

def strBytes (s : String) : List UInt8 := s.toList.map (fun c => UInt8.ofNat c.toNat)

def xmlDeclEnc (bs : List UInt8) : Option String := do
  let rest ← if strBytes "<?xml" <+: bs then some (bs.drop 5) else none
  let ws := rest.takeWhile isXmlWsB
  let rest := rest.dropWhile isXmlWsB
  if ws.isEmpty then none else
  let rest ← if strBytes "version=" <+: rest then some (rest.drop 8) else none
  match rest with
  | q :: b1 :: bdot :: b0 :: q' :: rest =>
    if (q = 39 ∨ q = 34) ∧ b1 = 49 ∧ bdot ≠ 10 ∧ b0 = 48 ∧ q' = q then do
      let ws := rest.takeWhile isXmlWsB
      let rest := rest.dropWhile isXmlWsB
      if ws.isEmpty then none else
      let rest ← if strBytes "encoding=" <+: rest then some (rest.drop 9) else none
      match rest with
      | q₂ :: rest =>
        if q₂ = 39 ∨ q₂ = 34 then
          let enc := rest.takeWhile isEncChar
          match rest.dropWhile isEncChar with
          | q₃ :: _ =>
            if enc ≠ [] ∧ q₃ = q₂ then
              some (String.mk (enc.map (fun b => Char.ofNat b.toNat)))
            else none
          | [] => none
        else none
      | [] => none
    else none
  | _ => none

/-- `detect_charset(html, charset)`. The token stream the tokenizer
would produce for the ASCII-decoded bytes is passed in explicitly; it is
only consulted when neither a hint nor a BOM decided the label. -/
def detectCharsetE (lookup : String → Option String) (html : List UInt8)
    (hint : Option String) (startTags : List StartTag) : Except Unit String := do
  let c : Option String := hint
  let c : Option String :=
    if c.isNone then
      if html.take 3 = [0xEF, 0xBB, 0xBF] then some "utf-8"
      else if html.take 2 = [0xFE, 0xFF] then some "utf-16-be"
      else if html.take 2 = [0xFF, 0xFE] then some "utf-16-le"
      else none
    else c
  let c : Option String ← if c.isNone then metaScan lookup startTags else pure c
  let c : Option String := if c.isNone then xmlDeclEnc html else c
  let c : String := c.getD "cp1252"
  let c : String :=
    match lookup c with
    | some name => name
    | none => "cp1252"
  pure (if c = "iso8859-1" ∨ c = "ascii" then "cp1252" else c)

/-- A sample of CPython's `codecs` registry: a label and the canonical
name `codecs.lookup(label).name` resolves it to (used to instantiate the
`lookup` parameter in witnesses and counterexamples). -/
def sampleRegistry : String → Option String := fun s =>
  dictGet [("utf-8", "utf-8"), ("UTF-8", "utf-8"), ("utf8", "utf-8"),
           ("utf-16", "utf-16"), ("utf-16-be", "utf-16-be"), ("utf-16-le", "utf-16-le"),
           ("cp1252", "cp1252"), ("windows-1252", "cp1252"),
           ("latin-1", "iso8859-1"), ("iso-8859-1", "iso8859-1"), ("latin1", "iso8859-1"),
           ("us-ascii", "ascii"), ("ascii", "ascii"),
           ("koi8-r", "koi8-r")] s

/-! ## A strict XML well-formedness checker

Modelled from the spec: "re-serialising via `outer_xml` yields
well-formed XML parseable by a strict XML parser". A fuel-bounded
recursive-descent parser for a strict subset of XML 1.0: one root
element, names from the ASCII part of the `Name` production, character
and attribute data restricted to XML `Char`s with `&`/`<` (and, stricter
than the letter of XML, raw `>`) only as references, attribute names
unique. Accepting here implies acceptance by a conforming XML parser;
rejections used as counterexamples are genuine XML violations. -/

def xmlNameStartChar (c : Char) : Bool :=
  (65 ≤ c.toNat && c.toNat ≤ 90) || (97 ≤ c.toNat && c.toNat ≤ 122) ||
  c.toNat = 95 || c.toNat = 58

def xmlNameChar (c : Char) : Bool :=
  xmlNameStartChar c || (48 ≤ c.toNat && c.toNat ≤ 57) ||
  c.toNat = 45 || c.toNat = 46

/-- The XML `Char` production. -/
def xmlChar (c : Char) : Bool :=
  c.toNat = 9 || c.toNat = 10 || c.toNat = 13 ||
  (32 ≤ c.toNat && c.toNat ≤ 0xD7FF) || (0xE000 ≤ c.toNat && c.toNat ≤ 0xFFFD) ||
  (0x10000 ≤ c.toNat && c.toNat ≤ 0x10FFFF)

def xmlWsChar (c : Char) : Bool :=
  c.toNat = 32 || c.toNat = 9 || c.toNat = 13 || c.toNat = 10

/-- Is a code point an XML `Char`? -/
def natXmlChar (n : Nat) : Bool :=
  n = 9 || n = 10 || n = 13 ||
  (32 ≤ n && n ≤ 0xD7FF) || (0xE000 ≤ n && n ≤ 0xFFFD) ||
  (0x10000 ≤ n && n ≤ 0x10FFFF)

def hexVal (c : Char) : Option Nat :=
  if '0' ≤ c ∧ c ≤ '9' then some (c.toNat - '0'.toNat)
  else if 'a' ≤ c ∧ c ≤ 'f' then some (c.toNat - 'a'.toNat + 10)
  else if 'A' ≤ c ∧ c ≤ 'F' then some (c.toNat - 'A'.toNat + 10)
  else none

def decVal (c : Char) : Option Nat :=
  if '0' ≤ c ∧ c ≤ '9' then some (c.toNat - '0'.toNat) else none

/-- Parse the digits of a character reference (at least one digit). -/
def readDigits (digit : Char → Option Nat) (radix : Nat) :
    List Char → Option (Nat × List Char)
  | [] => none
  | c :: rest =>
    match digit c with
    | none => none
    | some d => some (readDigitsGo digit radix d rest)
where
  readDigitsGo (digit : Char → Option Nat) (radix : Nat) (acc : Nat) :
      List Char → Nat × List Char
    | [] => (acc, [])
    | c :: rest =>
      match digit c with
      | none => (acc, c :: rest)
      | some d => readDigitsGo digit radix (acc * radix + d) rest

/-- Parse one reference after the `&`, consuming through the `;`. -/
def pRef (cs : List Char) : Option (List Char) :=
  if "amp;".toList <+: cs then some (cs.drop 4)
  else if "lt;".toList <+: cs then some (cs.drop 3)
  else if "gt;".toList <+: cs then some (cs.drop 3)
  else if "quot;".toList <+: cs then some (cs.drop 5)
  else if "apos;".toList <+: cs then some (cs.drop 5)
  else
    match cs with
    | '#' :: 'x' :: rest => do
      let (n, rest) ← readDigits hexVal 16 rest
      match rest with
      | ';' :: rest' => if natXmlChar n then some rest' else none
      | _ => none
    | '#' :: rest => do
      let (n, rest) ← readDigits decVal 10 rest
      match rest with
      | ';' :: rest' => if natXmlChar n then some rest' else none
      | _ => none
    | _ => none

/-- Consume character data up to the next `<` (or the end). -/
def pText (fuel : Nat) (cs : List Char) : Option (List Char) :=
  match fuel with
  | 0 => none
  | fuel + 1 =>
    match cs with
    | [] => some []
    | c :: rest =>
      if c = '<' then some (c :: rest)
      else if c = '&' then
        match pRef rest with
        | some rest' => pText fuel rest'
        | none => none
      else if xmlChar c ∧ c ≠ '>' then pText fuel rest
      else none

/-- An XML name: a name-start character then name characters. -/
def pName (cs : List Char) : Option (String × List Char) :=
  match cs with
  | [] => none
  | c :: rest =>
    if xmlNameStartChar c then
      some (String.mk (c :: rest.takeWhile xmlNameChar), rest.dropWhile xmlNameChar)
    else none

/-- An attribute value after the opening quote, consuming the closing
quote. -/
def pAttrValue (fuel : Nat) (q : Char) (cs : List Char) : Option (List Char) :=
  match fuel with
  | 0 => none
  | fuel + 1 =>
    match cs with
    | [] => none
    | c :: rest =>
      if c = q then some rest
      else if c = '&' then
        match pRef rest with
        | some rest' => pAttrValue fuel q rest'
        | none => none
      else if xmlChar c ∧ c ≠ '<' then pAttrValue fuel q rest
      else none

/-- The attribute list of a start tag; stops in front of `/` or `>`;
attribute names must be new. -/
def pAttrs (fuel : Nat) (cs : List Char) (names : List String) : Option (List Char) :=
  match fuel with
  | 0 => none
  | fuel + 1 =>
    let ws := cs.takeWhile xmlWsChar
    let rest := cs.dropWhile xmlWsChar
    match rest with
    | [] => none
    | c :: r₀ =>
      if c = '/' ∨ c = '>' then some (c :: r₀)
      else if ws = [] then none
      else
        match pName (c :: r₀) with
        | none => none
        | some (nm, r) =>
          if nm ∈ names then none
          else
            match r with
            | '=' :: q :: r' =>
              if q = '"' ∨ q = '\'' then
                match pAttrValue fuel q r' with
                | some r₂ => pAttrs fuel r₂ (nm :: names)
                | none => none
              else none
            | _ => none

mutual
/-- One element: `<name attrs/>` or `<name attrs>content</name>`. -/
def pElem (fuel : Nat) (cs : List Char) : Option (List Char) :=
  match fuel with
  | 0 => none
  | fuel + 1 =>
    match cs with
    | [] => none
    | c₀ :: rest =>
      if c₀ = '<' then
        match pName rest with
        | none => none
        | some (nm, r) =>
          match pAttrs fuel r [] with
          | none => none
          | some r₁ =>
            match r₁ with
            | [] => none
            | c₁ :: r₂ =>
              if c₁ = '/' then
                match r₂ with
                | '>' :: r₃ => some r₃
                | _ => none
              else if c₁ = '>' then
                match pContent fuel r₂ with
                | none => none
                | some r₃ =>
                  match r₃ with
                  | '<' :: '/' :: r₄ =>
                    match pName r₄ with
                    | none => none
                    | some (nm₂, r₅) =>
                      if nm₂ = nm then
                        match r₅ with
                        | '>' :: r₆ => some r₆
                        | _ => none
                      else none
                  | _ => none
              else none
      else none

/-- Element content: runs of character data and child elements, stopping
in front of the closing `</`. -/
def pContent (fuel : Nat) (cs : List Char) : Option (List Char) :=
  match fuel with
  | 0 => none
  | fuel + 1 =>
    match pText fuel cs with
    | none => none
    | some r =>
      match r with
      | '<' :: rr =>
        match rr with
        | [] => none
        | c₂ :: rrr =>
          if c₂ = '/' then some ('<' :: c₂ :: rrr)
          else
            match pElem fuel ('<' :: c₂ :: rrr) with
            | some r₂ => pContent fuel r₂
            | none => none
      | _ => none
end

/-- Modelled from the spec: acceptance by a strict XML parser — exactly
one element spanning the whole input. -/
def xmlAccepts (s : String) : Bool :=
  match pElem (2 * s.toList.length + 2) s.toList with
  | some [] => true
  | _ => false

/-! ## XML-goodness of token streams and trees

The re-serialisation invariant of the spec does not survive arbitrary
tokenizer output (tag names may contain `=` or `&`, attributes may be
valueless on `<html>`, texts may contain control characters); these
predicates carve out the inputs on which it holds. -/

def goodNameB (s : String) : Bool :=
  match s.toList with
  | [] => false
  | c :: rest => xmlNameStartChar c && rest.all xmlNameChar

def goodTextB (s : String) : Bool := s.toList.all xmlChar

/-- Attribute dictionaries with unique XML-name keys and present,
XML-clean values. -/
def goodAttrsB : Attrs → Bool
  | [] => true
  | (k, v) :: rest =>
    goodNameB k &&
    (match v with | some s => goodTextB s | none => false) &&
    !(rest.any (fun kv => kv.1 = k)) && goodAttrsB rest

mutual
def goodElemB : Elem → Bool
  | .mk t a s c l =>
    goodNameB t && goodAttrsB a && goodTextB s && goodListB c && goodTextB l

def goodListB : ElemList → Bool
  | .nil => true
  | .cons e es => goodElemB e && goodListB es
end

/-- A token stream under which the parse tree stays XML-serialisable:
start-tag names and attribute names are XML names; attribute values are
XML character data, and on `<html>` tags they must be present (a `None`
value would be stored raw and crash `html.escape` when serialising);
character data is XML character data. -/
def goodTokB : Tok → Bool
  | .start t attrs =>
    goodNameB t && attrs.all (fun kv =>
      goodNameB kv.1 &&
      (match kv.2 with | some v => goodTextB v | none => t ≠ "html"))
  | .endtag _ => true
  | .data s => goodTextB s

def goodFrameB (f : Frame) : Bool :=
  goodNameB f.tag && goodAttrsB f.attrib && goodTextB f.text && goodListB f.children

def goodPStateB (st : PState) : Bool :=
  st.stack.all goodFrameB &&
  st.format.all (fun p => goodNameB p.1 && goodAttrsB p.2)

/-! ## Concrete instances used by the claim theorems -/

/-- The element variant with an upper-cased tag (for the
case-insensitivity claims). -/
def Elem.withTag (t : String) : Elem → Elem
  | .mk _ a s c l => .mk t a s c l

/-- The form of the spec's GET-submission scenario: a text field `name`,
a checked radio `b`, and a `<select name=b>` whose selected options have
the values `a` (from its text) and `c` (from the attribute). -/
def c5form : Elem :=
  .mk "form" [("accept-charset", some "UTF-8")] ""
    (.cons (.mk "input" [("type", some "text"), ("name", some "name"),
                         ("value", some "Müßtérmañ")] "" .nil "")
    (.cons (.mk "input" [("type", some "radio"), ("name", some "b"),
                         ("checked", some "checked")] "" .nil "")
    (.cons (.mk "select" [("name", some "b")] ""
      (.cons (.mk "option" [("selected", some "selected")] "a" .nil "")
      (.cons (.mk "option" [("value", some "b")] "x" .nil "")
      (.cons (.mk "option" [("value", some "c"), ("selected", some "selected")]
        "y" .nil "") .nil))) "")
    .nil))) ""

/-- A two-element radio group of name `g` with value attributes `a`
(checked) and `b`. -/
def radioForm : Elem :=
  .mk "form" [] ""
    (.cons (.mk "input" [("type", some "radio"), ("name", some "g"),
                         ("value", some "a"), ("checked", some "checked")] "" .nil "")
    (.cons (.mk "input" [("type", some "radio"), ("name", some "g"),
                         ("value", some "b")] "" .nil "")
    .nil)) ""

/-- A single unchecked radio button of name `g` with value `b`: a
one-element radio group. -/
def singleRadioForm : Elem :=
  .mk "form" [] ""
    (.cons (.mk "input" [("type", some "radio"), ("name", some "g"),
                         ("value", some "b")] "" .nil "")
    .nil) ""

/-- The token stream of `<b>a<div>b<i>c<div>d</b>e</div>f</i>`. -/
def c1Tokens : List Tok :=
  [.start "b" [], .data "a", .start "div" [], .data "b", .start "i" [],
   .data "c", .start "div" [], .data "d", .endtag "b", .data "e",
   .endtag "div", .data "f", .endtag "i"]

/-- The tag of the bottom (root) frame. -/
def lastTagF (sk : List Frame) : Option String := sk.getLast?.map Frame.tag

def attrPieceL (kv : String × Option String) : List Char :=
  ' ' :: ((kv.1.toList.map (escapeChar true)).flatten ++
    '=' :: '"' :: (((kv.2.getD "").toList.map (escapeChar true)).flatten ++ ['"']))

def attrsL : Attrs → List Char
  | [] => []
  | kv :: rest => attrPieceL kv ++ attrsL rest

/-- The pointwise hypothesis used for raw attribute lists before they are
turned into a dictionary. -/
def goodRawAttrs (attrs : Attrs) : Prop :=
  ∀ kv ∈ attrs, goodNameB kv.1 = true ∧ ∃ v, kv.2 = some v ∧ goodTextB v = true

/-! # Theorems -/

/-! ### Root-tag invariant (C2 part A) -/

theorem lastTagF_cons_cons (f g : Frame) (rest : List Frame) :
    lastTagF (f :: g :: rest) = lastTagF (g :: rest) := by
  simp [lastTagF]

theorem tag_pushChild (f g : Frame) : (pushChild f g).tag = g.tag := rfl

theorem lastTagF_pushChild_cons (f g : Frame) (rest : List Frame) :
    lastTagF (pushChild f g :: rest) = lastTagF (g :: rest) := by
  cases rest with
  | nil => simp [lastTagF, tag_pushChild]
  | cons x xs => simp [lastTagF]

theorem lastTagF_closeTagGo (t : String) (rest : List Frame) : ∀ f,
    lastTagF (closeTagGo t f rest) = lastTagF (f :: rest) := by
  induction rest with
  | nil => intro f; rfl
  | cons g rs ih =>
    intro f
    rw [closeTagGo]
    by_cases h : f.tag = t
    · rw [if_pos h, lastTagF_pushChild_cons, lastTagF_cons_cons]
    · rw [if_neg h, ih, lastTagF_pushChild_cons, lastTagF_cons_cons]

theorem lastTagF_closeTag (sk : List Frame) (t : String) :
    lastTagF (closeTag sk t) = lastTagF sk := by
  cases sk with
  | nil => rfl
  | cons f rest =>
    cases rest with
    | nil => rfl
    | cons g rs => exact lastTagF_closeTagGo t (g :: rs) f

theorem lastTagF_cons_of_ne_nil (f : Frame) (sk : List Frame) (h : sk ≠ []) :
    lastTagF (f :: sk) = lastTagF sk := by
  cases sk with
  | nil => exact absurd rfl h
  | cons g rs => simp [lastTagF]

theorem lastTagF_openTag (sk : List Frame) (t : String) (a : Attrs) (h : sk ≠ []) :
    lastTagF (openTag sk t a) = lastTagF sk :=
  lastTagF_cons_of_ne_nil _ sk h

theorem closeTagGo_ne_nil (t : String) (rest : List Frame) : ∀ f, closeTagGo t f rest ≠ [] := by
  induction rest with
  | nil => intro f; simp [closeTagGo]
  | cons g rs ih =>
    intro f
    rw [closeTagGo]
    by_cases h : f.tag = t
    · rw [if_pos h]; simp
    · rw [if_neg h]; exact ih _

theorem closeTag_ne_nil (sk : List Frame) (t : String) (h : sk ≠ []) :
    closeTag sk t ≠ [] := by
  cases sk with
  | nil => exact absurd rfl h
  | cons f rest =>
    cases rest with
    | nil => simp [closeTag]
    | cons g rs => exact closeTagGo_ne_nil t (g :: rs) f

theorem closeFmtGo_ne_nil (t : String) (a : Attrs) (rest : List Frame) : ∀ f,
    closeFmtGo t a f rest ≠ [] := by
  induction rest with
  | nil => intro f; simp [closeFmtGo]
  | cons g rs ih =>
    intro f
    rw [closeFmtGo]
    by_cases h : f.tag = t
    · rw [if_pos h]; simp
    · rw [if_neg h]
      by_cases h2 : f.tag ∈ formatting_els
      · rw [if_pos h2]; simp [openTag]
      · rw [if_neg h2]; simp

theorem lastTagF_closeFmtGo (t : String) (a : Attrs) (rest : List Frame) : ∀ f,
    lastTagF (closeFmtGo t a f rest) = lastTagF (f :: rest) := by
  induction rest with
  | nil => intro f; rfl
  | cons g rs ih =>
    intro f
    rw [closeFmtGo]
    by_cases h : f.tag = t
    · rw [if_pos h, lastTagF_pushChild_cons, lastTagF_cons_cons]
    · rw [if_neg h]
      by_cases h2 : f.tag ∈ formatting_els
      · rw [if_pos h2]
        unfold openTag
        rw [lastTagF_cons_of_ne_nil _ _ (closeFmtGo_ne_nil t a rs _), ih,
            lastTagF_pushChild_cons, lastTagF_cons_cons]
      · rw [if_neg h2]
        rw [lastTagF_cons_of_ne_nil _ _ (closeFmtGo_ne_nil t a rs _), ih,
            lastTagF_cons_cons]

theorem lastTagF_closeFmt (sk : List Frame) (t : String) (a : Attrs) (h : sk ≠ []) :
    lastTagF (closeFmt sk t a) = lastTagF sk := by
  cases sk with
  | nil => exact absurd rfl h
  | cons f rest => exact lastTagF_closeFmtGo t a rest f

theorem closeFmt_ne_nil (sk : List Frame) (t : String) (a : Attrs) (h : sk ≠ []) :
    closeFmt sk t a ≠ [] := by
  cases sk with
  | nil => exact absurd rfl h
  | cons f rest => exact closeFmtGo_ne_nil t a rest f

theorem popFmtGo_ne_nil (t : String) (rest : List Frame) : ∀ f, popFmtGo t f rest ≠ [] := by
  induction rest with
  | nil => intro f; simp [popFmtGo]
  | cons g rs ih =>
    intro f
    rw [popFmtGo]
    by_cases h : f.tag ∈ formatting_els ∧ f.tag ≠ t
    · rw [if_pos h]; exact ih _
    · rw [if_neg h]; simp

theorem lastTagF_popFmtGo (t : String) (rest : List Frame) : ∀ f,
    lastTagF (popFmtGo t f rest) = lastTagF (f :: rest) := by
  induction rest with
  | nil => intro f; rfl
  | cons g rs ih =>
    intro f
    rw [popFmtGo]
    by_cases h : f.tag ∈ formatting_els ∧ f.tag ≠ t
    · rw [if_pos h, ih, lastTagF_pushChild_cons, lastTagF_cons_cons]
    · rw [if_neg h]

theorem lastTagF_popFmtWhile (sk : List Frame) (t : String) (h : sk ≠ []) :
    lastTagF (popFmtWhile sk t) = lastTagF sk := by
  cases sk with
  | nil => exact absurd rfl h
  | cons f rest => exact lastTagF_popFmtGo t rest f

theorem popFmtWhile_ne_nil (sk : List Frame) (t : String) (h : sk ≠ []) :
    popFmtWhile sk t ≠ [] := by
  cases sk with
  | nil => exact absurd rfl h
  | cons f rest => exact popFmtGo_ne_nil t rest f

theorem lastTagF_popTop (sk : List Frame) (h : sk ≠ []) :
    lastTagF (popTop sk) = lastTagF sk := by
  match sk with
  | [] => exact absurd rfl h
  | [f] => rfl
  | f :: g :: rest => exact lastTagF_pushChild_cons f g rest

theorem popTop_ne_nil (sk : List Frame) (h : sk ≠ []) : popTop sk ≠ [] := by
  match sk with
  | [] => exact absurd rfl h
  | [f] => simp [popTop]
  | f :: g :: rest => simp [popTop]

theorem lastTagF_modifyRoot (h : Frame → Frame) (ht : ∀ f, (h f).tag = f.tag)
    (sk : List Frame) : lastTagF (modifyRoot h sk) = lastTagF sk := by
  unfold modifyRoot
  cases hr : sk.reverse with
  | nil =>
    have : sk = [] := by
      have := congrArg List.reverse hr
      simpa using this
    simp [this, lastTagF]
  | cons r rest =>
    have hsk : sk = (r :: rest).reverse := by
      have := congrArg List.reverse hr
      simpa using this
    rw [hsk]
    simp [lastTagF, ht]

theorem modifyRoot_ne_nil (h : Frame → Frame) (sk : List Frame) (hne : sk ≠ []) :
    modifyRoot h sk ≠ [] := by
  unfold modifyRoot
  cases hr : sk.reverse with
  | nil =>
    have : sk = [] := by
      have := congrArg List.reverse hr
      simpa using this
    exact absurd this hne
  | cons r rest => simp



theorem lastTagF_ne_nil {sk : List Frame} {t : String} (h : lastTagF sk = some t) :
    sk ≠ [] := by
  intro he
  rw [he] at h
  simp [lastTagF] at h

theorem lastTagF_foldl_openTag (L : List (String × Attrs)) : ∀ sk : List Frame, sk ≠ [] →
    lastTagF (L.foldl (fun sk f => openTag sk f.1 f.2) sk) = lastTagF sk
    ∧ L.foldl (fun sk f => openTag sk f.1 f.2) sk ≠ [] := by
  induction L with
  | nil => intro sk h; exact ⟨rfl, h⟩
  | cons p ps ih =>
    intro sk h
    have hne : openTag sk p.1 p.2 ≠ [] := by simp [openTag]
    obtain ⟨h1, h2⟩ := ih (openTag sk p.1 p.2) hne
    rw [List.foldl_cons]
    exact ⟨h1.trans (lastTagF_openTag sk p.1 p.2 h), h2⟩

theorem lastTagF_restore (st : PState) (h : st.stack ≠ []) :
    lastTagF (restoreFormatStack st).stack = lastTagF st.stack
    ∧ (restoreFormatStack st).stack ≠ [] := by
  unfold restoreFormatStack
  exact lastTagF_foldl_openTag _ st.stack h

theorem lastTagF_head_congr (f f' : Frame) (h : f'.tag = f.tag) (rest : List Frame) :
    lastTagF (f' :: rest) = lastTagF (f :: rest) := by
  cases rest with
  | nil => simp [lastTagF, h]
  | cons g rs => simp [lastTagF]

theorem lastTagF_handleStarttag (st : PState) (t : String) (a : Attrs)
    (h : lastTagF st.stack = some "html") :
    lastTagF (handleStarttag st t a).stack = some "html" := by
  have hne := lastTagF_ne_nil h
  unfold handleStarttag
  by_cases ht : t = "html"
  · rw [if_pos ht]
    show lastTagF (modifyRoot _ st.stack) = _
    rw [lastTagF_modifyRoot _ ?htag st.stack]
    · exact h
    · intro f
      generalize f = f0
      induction a generalizing f0 with
      | nil => rfl
      | cons kv rest ih => exact (ih _).trans rfl
  · rw [if_neg ht]
    simp only
    set sk1 := if t ∈ p_closing_els ∧ hasInScope st.stack "p" block_scope_els
        then closeTag st.stack "p" else st.stack with hsk1
    have h1 : lastTagF sk1 = some "html" ∧ sk1 ≠ [] := by
      rw [hsk1]
      split
      · exact ⟨(lastTagF_closeTag _ _).trans h, closeTag_ne_nil _ _ hne⟩
      · exact ⟨h, hne⟩
    set sk2 := if t ∈ ["caption", "colgroup", "tbody", "td", "tfoot", "th", "thead", "tr"]
        ∧ hasInScope sk1 t ["table"] then closeTag sk1 t else sk1 with hsk2
    have h2 : lastTagF sk2 = some "html" ∧ sk2 ≠ [] := by
      rw [hsk2]
      split
      · exact ⟨(lastTagF_closeTag _ _).trans h1.1, closeTag_ne_nil _ _ h1.2⟩
      · exact h1
    set sk3 := if t ∈ ["dd", "dt", "li"] ∧ hasInScope sk2 t ["dl", "ol", "ul"]
        then closeTag sk2 t else sk2 with hsk3
    have h3 : lastTagF sk3 = some "html" ∧ sk3 ≠ [] := by
      rw [hsk3]
      split
      · exact ⟨(lastTagF_closeTag _ _).trans h2.1, closeTag_ne_nil _ _ h2.2⟩
      · exact h2
    set sk4 := if t ∈ ["optgroup", "option"] ∧ hasInScope sk3 t ["select"]
        then closeTag sk3 t else sk3 with hsk4
    have h4 : lastTagF sk4 = some "html" ∧ sk4 ≠ [] := by
      rw [hsk4]
      split
      · exact ⟨(lastTagF_closeTag _ _).trans h3.1, closeTag_ne_nil _ _ h3.2⟩
      · exact h3
    have hfinal : ∀ (skb : List Frame), lastTagF skb = some "html" → skb ≠ [] →
        ∀ (ad : Attrs),
        lastTagF (if t ∈ void_els then closeTag (openTag skb t ad) t
          else openTag skb t ad) = some "html" := by
      intro skb hl hn ad
      split
      · exact (lastTagF_closeTag _ _).trans ((lastTagF_openTag _ _ _ hn).trans hl)
      · exact (lastTagF_openTag _ _ _ hn).trans hl
    by_cases hfmt : t ∈ formatting_els
    · rw [if_pos hfmt]
      have hr := lastTagF_restore { st with stack := sk4 } h4.2
      exact hfinal _ (hr.1.trans h4.1) hr.2 _
    · rw [if_neg hfmt]
      exact hfinal _ h4.1 h4.2 _



theorem lastTagF_handleEndtag (st : PState) (t : String)
    (h : lastTagF st.stack = some "html") :
    lastTagF (handleEndtag st t).stack = some "html" := by
  have hne := lastTagF_ne_nil h
  unfold handleEndtag
  by_cases ht : t = "html"
  · rw [if_pos ht]; exact h
  · rw [if_neg ht]
    simp only
    set sk1 := if t = "p" ∧ ¬ hasInScope st.stack "p" block_scope_els
        then openTag st.stack "p" [] else st.stack with hsk1
    have h1 : lastTagF sk1 = some "html" ∧ sk1 ≠ [] := by
      rw [hsk1]
      split
      · exact ⟨(lastTagF_openTag _ _ _ hne).trans h, by simp [openTag]⟩
      · exact ⟨h, hne⟩
    by_cases hli : t ∈ ["li", "dd", "dt"] ∧ ¬ hasInScope sk1 t list_scope_els
    · rw [if_pos hli]; exact h1.1
    · rw [if_neg hli]
      by_cases hf : t ∈ formatting_els
      · rw [if_pos hf]
        by_cases hmem : t ∈ st.format.map Prod.fst
        · rw [if_pos hmem]
          show lastTagF (if t ∈ sk1.map Frame.tag then _ else sk1) = some "html"
          by_cases hstk : t ∈ sk1.map Frame.tag
          · rw [if_pos hstk]
            have hpw : lastTagF (popFmtWhile sk1 t) = some "html" :=
              (lastTagF_popFmtWhile sk1 t h1.2).trans h1.1
            have hpwne : popFmtWhile sk1 t ≠ [] := popFmtWhile_ne_nil sk1 t h1.2
            cases hpop : popFmtWhile sk1 t with
            | nil => exact absurd hpop hpwne
            | cons f rest =>
              rw [hpop] at hpw hpwne
              simp only
              by_cases hft : f.tag = t
              · rw [if_pos hft]
                exact (lastTagF_popTop _ hpwne).trans hpw
              · rw [if_neg hft]
                exact (lastTagF_closeFmt _ _ _ hpwne).trans hpw
          · rw [if_neg hstk]; exact h1.1
        · rw [if_neg hmem]; exact h1.1
      · rw [if_neg hf]
        by_cases hsc : hasInScope sk1 t default_scope_els = true
        · rw [if_pos hsc]
          exact (lastTagF_closeTag _ _).trans h1.1
        · rw [if_neg hsc]; exact h1.1

theorem lastTagF_handleData (st : PState) (s : String)
    (h : lastTagF st.stack = some "html") :
    lastTagF (handleData st s).stack = some "html" := by
  have hne := lastTagF_ne_nil h
  unfold handleData
  have hr := lastTagF_restore st hne
  have h5 : lastTagF (restoreFormatStack st).stack = some "html" := hr.1.trans h
  simp only []
  split
  · exact h5
  · rename_i f rest hst
    rw [hst] at h5
    show lastTagF (_ :: rest) = some "html"
    refine Eq.trans ?_ h5
    apply lastTagF_head_congr
    split
    · rfl
    · rfl

theorem lastTagF_feed (toks : List Tok) : ∀ st : PState,
    lastTagF st.stack = some "html" → lastTagF (feed st toks).stack = some "html" := by
  induction toks with
  | nil => intro st h; exact h
  | cons tk rest ih =>
    intro st h
    rw [feed, List.foldl_cons]
    apply ih
    cases tk with
    | start t a => exact lastTagF_handleStarttag st t a h
    | endtag t => exact lastTagF_handleEndtag st t h
    | data s => exact lastTagF_handleData st s h

theorem foldStackGo_tag (rest : List Frame) : ∀ f : Frame,
    some (foldStackGo f rest).tag = lastTagF (f :: rest) := by
  induction rest with
  | nil => intro f; rfl
  | cons g rs ih =>
    intro f
    rw [foldStackGo, ih, lastTagF_pushChild_cons, lastTagF_cons_cons]

theorem tag_toElem (f : Frame) : f.toElem.tag = f.tag := rfl
theorem tag_withText (e : Elem) (x : String) : (e.withText x).tag = e.tag := by cases e; rfl
theorem tag_withChildren (e : Elem) (c : ElemList) : (e.withChildren c).tag = e.tag := by
  cases e; rfl

theorem finish_tag (st : PState) (h : lastTagF st.stack = some "html") :
    (finish st).tag = "html" := by
  unfold finish
  have hroot : (foldStack st.stack).tag = "html" := by
    cases hst : st.stack with
    | nil => rw [hst] at h; simp [lastTagF] at h
    | cons f rest =>
      rw [hst] at h
      exact Option.some.inj ((foldStackGo_tag rest f).trans h)
  simp only
  split <;> split <;>
    simp only [tag_withChildren, tag_withText, tag_toElem] <;> exact hroot

theorem parseTokens_tag (toks : List Tok) : (parseTokens toks).tag = "html" := by
  unfold parseTokens
  apply finish_tag
  apply lastTagF_feed
  rfl


/-- C1: Parsing the token stream of the literal input
`<b>a<div>b<i>c<div>d</b>e</div>f</i>` with the tree-building parser
produces exactly the tree that serialises as
`<html><b>a</b><div><b>b<i>c</i></b><i><div><b>d</b>e</div>f</i></div></html>`:
the misnesting-recovery algorithm pulls the `<b>` and `<i>` formatters
through the intervening `<div>` block elements. -/
theorem c1_misnested_across_block :
    outerXml (parseTokens c1Tokens) =
      some "<html><b>a</b><div><b>b<i>c</i></b><i><div><b>d</b>e</div>f</i></div></html>" := by
  decide

/-- C3 (code bug): charset detection does not always terminate without
raising. On the bytes `b'<meta http-equiv content=x>'` with no external
hint, the tokenizer reports the valueless `http-equiv` attribute as
`None`, and `_CharsetDetectingHTMLParser.handle_starttag` evaluates
`ad['http-equiv'].lower()`, raising `AttributeError` out of
`detect_charset` (the `.error ()` of the model). -/
theorem c3_detect_charset_raises :
    detectCharsetE sampleRegistry (strBytes "<meta http-equiv content=x>") none
      [("meta", [("http-equiv", none), ("content", some "x")])] = .error () := by
  rfl

/-- C5: The form with `accept-charset=UTF-8`, a text field
`name=Müßtérmañ`, a checked radio `b` (submitting its default value
`on`), and a `<select name=b>` with selected options `a` and `c`,
produces on GET submission exactly this query string: pairs in tree
order, names and values percent-encoded as UTF-8 bytes. -/
theorem c5_get_submission_query :
    getFormdataQuery sampleRegistry c5form =
      some "name=M%C3%BC%C3%9Ft%C3%A9rma%C3%B1&b=on&b=a&b=c" := by
  decide

/-- C4 counterexample: for `<p>foo<b>bar</b></p>`, `text_content` is
`"foo bar"` (the code splits each `itertext()` fragment separately and
joins all pieces with spaces), while normalising the plain concatenation
of the fragments gives `"foobar"` — the claimed equality fails. -/
theorem c4_text_content_counterexample :
    textContent (.mk "p" [] "foo" (.cons (.mk "b" [] "bar" .nil "") .nil) "") = "foo bar"
    ∧ normaliseWs (String.join (iterText
        (.mk "p" [] "foo" (.cons (.mk "b" [] "bar" .nil "") .nil) ""))) = "foobar" := by
  decide

/-- C9 counterexample: an `<option value="">bar</option>` has a `value`
attribute present with the empty string, yet `HtmlOptionElement.value`
falls through to the text (`self.get('value') or str(self.text)`), so it
is `"bar"`, not `""` as the claim states. -/
theorem c9_option_value_counterexample :
    (Elem.mk "option" [("value", some "")] "bar" .nil "").get "value" = some ""
    ∧ optionValue (.mk "option" [("value", some "")] "bar" .nil "") = "bar" := by
  decide

/-- C2 counterexample: the token stream of `<a=b>x` (Python's tokenizer
accepts `=` inside a tag name) parses fine, but the re-serialisation
`<html><a=b>x</a=b></html>` is not well-formed XML — `=` cannot occur in
an element name — so a strict XML parser rejects it. -/
theorem c2_xml_counterexample :
    (outerXml (parseTokens [.start "a=b" [], .data "x"])).map xmlAccepts = some false := by
  decide

/-- C6 counterexample: a group consisting of one unchecked radio button
`g` with value `b` is an all-radio group and a member has value `b`, but
`set_field('g','b')` takes the single-input branch, which assigns the
`value` attribute instead of checking the button: no member ends up
checked and no error is raised. -/
theorem c6_radio_counterexample :
    setFieldE singleRadioForm "g" "b" = .ok singleRadioForm
    ∧ ((namedInputs singleRadioForm "g").filter inputChecked).length = 0
    ∧ ((namedInputs singleRadioForm "g").filter
        (fun e => e.get "value" = some "b")).length = 1 := by
  exact ⟨rfl, by decide, by decide⟩

/-- C7 counterexample: id matching is case-sensitive: an element with
`id="Foo"` does not match the selector `#foo` (while `#Foo` does). -/
theorem c7_id_case_counterexample :
    matcherId "foo" (.mk "div" [("id", some "Foo")] "" .nil "") = false
    ∧ matcherId "Foo" (.mk "div" [("id", some "Foo")] "" .nil "") = true := by
  decide

/-- C8 counterexample: `query_selector_all` is a generator function, so
the call itself only suspends the body and cannot raise; compiling the
invalid selector `###` — and with it the `InvalidSelector` error — only
happens when the generator is first advanced. -/
theorem c8_call_does_not_raise_counterexample :
    querySelectorAllCall (.mk "html" [] "" .nil "") "###"
      = ⟨.mk "html" [] "" .nil "", "###"⟩
    ∧ qsaForce (querySelectorAllCall (.mk "html" [] "" .nil "") "###")
      = .error .invalidSelector := by
  exact ⟨rfl, rfl⟩

/-- C10 counterexample: for bytes beginning with
`<?xml version="1.0" encoding="latin-1"` (no hint, BOM or meta), the
code does not return the canonical label of `latin-1` (which is
`iso8859-1`): the legacy-aliasing step still applies and turns it into
`cp1252`. -/
theorem c10_latin1_counterexample :
    detectCharsetE sampleRegistry
      (strBytes "<?xml version=\x221.0\x22 encoding=\x22latin-1\x22?>") none [] = .ok "cp1252"
    ∧ sampleRegistry "latin-1" = some "iso8859-1" := by
  exact ⟨rfl, by decide⟩

/-! ### Helper lemmas for the amended claims -/

theorem toLowerUpperComp : (Char.toLower ∘ Char.toUpper) = Char.toLower := by
  funext c
  show c.toUpper.toLower = c.toLower
  unfold Char.toUpper Char.toLower
  by_cases h : c.toNat ≥ 97 ∧ c.toNat ≤ 122
  · rw [if_pos h]
    have hval : Nat.isValidChar (c.toNat - 32) := Or.inl (by omega)
    have htv : (Char.ofNat (c.toNat - 32)).toNat = c.toNat - 32 := by
      rw [Char.ofNat, dif_pos hval]; rfl
    rw [htv]
    rw [if_pos (by omega : c.toNat - 32 ≥ 65 ∧ c.toNat - 32 ≤ 90),
        if_neg (by omega : ¬(c.toNat ≥ 65 ∧ c.toNat ≤ 90))]
    have heq : c.toNat - 32 + 32 = c.toNat := by omega
    rw [heq, Char.ofNat_toNat]
  · rw [if_neg h]

theorem pyLower_pyUpper (s : String) : pyLower (pyUpper s) = pyLower s := by
  unfold pyLower pyUpper
  have hl : ∀ l : List Char, (String.mk l).toList = l := fun l => rfl
  rw [hl, List.map_map, toLowerUpperComp]

theorem tag_withTag (el : Elem) (t : String) : (el.withTag t).tag = t := by
  cases el; rfl

/-- C7 (amended): tag-name matching is case-insensitive on both sides
(upper-casing either the selector or the element's tag does not change
the outcome), while an id selector matches exactly when the `id`
attribute value equals the selector's id verbatim. -/
theorem c7_amended_case_sensitivity (el : Elem) (t s : String) :
    matcherTagname t el = matcherTagname (pyUpper t) el
    ∧ matcherTagname t (el.withTag (pyUpper el.tag)) = matcherTagname t el
    ∧ (matcherId s el = true ↔ el.get "id" = some s) := by
  refine ⟨?_, ?_, ?_⟩
  · unfold matcherTagname
    rw [pyLower_pyUpper]
  · unfold matcherTagname
    rw [tag_withTag, pyLower_pyUpper]
  · unfold matcherId
    exact decide_eq_true_iff

theorem c7_amended_witness :
    matcherTagname "div" (Elem.mk "div" [] "" .nil "")
      = matcherTagname (pyUpper "div") (Elem.mk "div" [] "" .nil "")
    ∧ (matcherId "Foo" (Elem.mk "div" [("id", some "Foo")] "" .nil "") = true
        ↔ (Elem.mk "div" [("id", some "Foo")] "" .nil "").get "id" = some "Foo") :=
  ⟨(c7_amended_case_sensitivity (Elem.mk "div" [] "" .nil "") "div" "x").1,
   (c7_amended_case_sensitivity (Elem.mk "div" [("id", some "Foo")] "" .nil "") "div" "Foo").2.2⟩

/-- C8 (amended): for a selector the engine cannot compile, the call to
`query_selector_all` itself returns a suspended generator without
raising; the `InvalidSelector` error surfaces when the generator is
first advanced — during compilation, before any traversal, so the
outcome is independent of the tree the query was issued against. -/
theorem c8_amended_error_on_first_advance (el el' : Elem) (s : String)
    (h : (qsaForce ⟨el, s⟩).isOk = false) :
    qsaForce ⟨el, s⟩ = .error .invalidSelector
    ∧ qsaForce ⟨el', s⟩ = .error .invalidSelector := by
  unfold qsaForce at *
  cases hb : buildCssSelector childIterSelector s with
  | ok f => rw [hb] at h; simp [Except.isOk, Except.toBool] at h
  | error e => cases e; simp [hb]

theorem c8_amended_witness :
    qsaForce ⟨Elem.mk "html" [] "" .nil "", "###"⟩ = .error .invalidSelector
    ∧ qsaForce ⟨Elem.mk "div" [] "x" .nil "", "###"⟩ = .error .invalidSelector :=
  c8_amended_error_on_first_advance (Elem.mk "html" [] "" .nil "")
    (Elem.mk "div" [] "x" .nil "") "###" (by rfl)

/-- C9 (amended): `HtmlOptionElement.value` is the `value` attribute
when that is present and non-empty; when the attribute is missing *or
present with the empty string* it is the element's text; `selected`
mirrors the presence of the `selected` attribute. -/
theorem c9_amended_option_value (el : Elem) :
    (∀ v, el.get "value" = some v → v ≠ "" → optionValue el = v)
    ∧ (el.get "value" = none → optionValue el = el.text)
    ∧ (el.get "value" = some "" → optionValue el = el.text)
    ∧ (optionSelected el = true ↔ (el.get "selected").isSome = true) := by
  refine ⟨?_, ?_, ?_, Iff.rfl⟩
  · intro v hv hne
    unfold optionValue pyOr pyOrStr
    rw [hv]
    simp [hne]
  · intro hv; unfold optionValue pyOr; rw [hv]
  · intro hv; unfold optionValue pyOr pyOrStr; rw [hv]; simp

theorem c9_amended_witness :
    optionValue (Elem.mk "option" [("value", some "foo")] "bar" .nil "") = "foo" :=
  (c9_amended_option_value (Elem.mk "option" [("value", some "foo")] "bar" .nil "")).1
    "foo" (by decide) (by decide)

/-- C10 (amended): with no hint, no BOM and a meta scan that finds
nothing, bytes beginning with an XML declaration whose encoding label
resolves in the registry make detection return that label's canonical
name — except that the legacy-aliasing step still applies: a label whose
canonical name is `iso8859-1` or `ascii` yields `cp1252` instead. -/
theorem c10_amended_xml_declaration (lookup : String → Option String) (bs : List UInt8)
    (tags : List StartTag) (E N : String)
    (h1 : xmlDeclEnc bs = some E)
    (h2 : metaScan lookup tags = .ok none)
    (h3 : lookup E = some N) :
    detectCharsetE lookup bs none tags =
      .ok (if N = "iso8859-1" ∨ N = "ascii" then "cp1252" else N) := by
  have hpre : strBytes "<?xml" <+: bs := by
    by_contra hn
    unfold xmlDeclEnc at h1
    rw [if_neg hn] at h1
    simp at h1
  obtain ⟨tl, htl⟩ := hpre
  have h3' : bs.take 3 = [60, 63, 120] := by
    rw [← htl, List.take_append_of_le_length (by decide)]
    rfl
  have h2' : bs.take 2 = [60, 63] := by
    rw [← htl, List.take_append_of_le_length (by decide)]
    rfl
  have hBOM : (if bs.take 3 = [0xEF, 0xBB, 0xBF] then some "utf-8"
      else if bs.take 2 = [0xFE, 0xFF] then some "utf-16-be"
      else if bs.take 2 = [0xFF, 0xFE] then some "utf-16-le"
      else none) = (none : Option String) := by
    rw [h3', h2']
    rfl
  unfold detectCharsetE
  simp only [Option.isNone_none, if_true, hBOM, h2, h1]
  show Except.bind (Except.ok none) _ = _
  simp only [Except.bind]
  simp [h1, h3]
  rfl

theorem c10_amended_witness :
    detectCharsetE sampleRegistry
      (strBytes "<?xml version=\x221.0\x22 encoding=\x22koi8-r\x22?>") none [] = .ok "koi8-r" := by
  have h := c10_amended_xml_declaration sampleRegistry
    (strBytes "<?xml version=\x221.0\x22 encoding=\x22koi8-r\x22?>") [] "koi8-r" "koi8-r"
    (by rfl) (by rfl) (by rfl)
  simpa using h


theorem intercalate_go_acc (s : String) (l : List String) : ∀ acc,
    String.intercalate.go acc s l = acc ++ (l.map (fun x => s ++ x)).foldr (· ++ ·) "" := by
  induction l with
  | nil => intro acc; simp [String.intercalate.go]
  | cons a as ih =>
    intro acc
    rw [String.intercalate.go, ih]
    simp [String.append_assoc]

theorem intercalate_cons₂ (s a b : String) (t : List String) :
    String.intercalate s (a :: b :: t) = a ++ s ++ String.intercalate s (b :: t) := by
  show String.intercalate.go a s (b :: t) = _
  rw [String.intercalate.go, intercalate_go_acc]
  show _ = a ++ s ++ String.intercalate.go b s t
  rw [intercalate_go_acc]
  simp [String.append_assoc]

theorem modifyHead_append_of_ne_nil (f : List α → List α) (xs ys : List (List α))
    (h : xs ≠ []) : (xs ++ ys).modifyHead f = xs.modifyHead f ++ ys := by
  cases xs with
  | nil => exact absurd rfl h
  | cons a t => rfl

theorem splitOnP_append_sep (p : α → Bool) (c : α) (hc : p c = true) (xs ys : List α) :
    (xs ++ c :: ys).splitOnP p = xs.splitOnP p ++ ys.splitOnP p := by
  induction xs with
  | nil => simp [List.splitOnP_cons, hc, List.splitOnP_nil]
  | cons x xs ih =>
    rw [List.cons_append, List.splitOnP_cons, List.splitOnP_cons]
    by_cases hx : p x
    · simp [hx, ih]
    · simp only [hx, Bool.false_eq_true, if_false, ih]
      rw [modifyHead_append_of_ne_nil _ _ _ (List.splitOnP_ne_nil _ _)]

theorem wsChunks_append_space (s t : String) :
    wsChunks (s ++ " " ++ t) = wsChunks s ++ wsChunks t := by
  unfold wsChunks
  have hdata : (s ++ " " ++ t).toList = s.toList ++ ' ' :: t.toList := by
    show (s ++ " " ++ t).data = s.data ++ ' ' :: t.data
    simp [String.data_append]
  rw [hdata, splitOnP_append_sep isAsciiWs ' ' (by decide)]
  simp [List.map_append, List.filter_append]

theorem wsChunks_intercalate (frags : List String) :
    wsChunks (String.intercalate " " frags) = (frags.map wsChunks).flatten := by
  induction frags with
  | nil => decide
  | cons f rest ih =>
    cases rest with
    | nil =>
      show wsChunks f = wsChunks f ++ []
      simp
    | cons g t =>
      rw [intercalate_cons₂, wsChunks_append_space, ih]
      simp

/-- C4 (amended): for every element `E`, `E.text_content` equals
`normalise_ws` applied to the `itertext()` fragments joined *with single
spaces* (not plainly concatenated): the code normalises each fragment
separately and joins all pieces with spaces, so adjacent fragments are
always space-separated. -/
theorem c4_amended_text_content (el : Elem) :
    textContent el = normaliseWs (String.intercalate " " (iterText el)) := by
  unfold textContent normaliseWs
  rw [wsChunks_intercalate]

theorem skel_eq (e : Elem) : skel e = .mk e.tag e.attrib "" .nil "" := rfl
theorem get_skel (e : Elem) (k : String) : (skel e).get k = e.get k := by cases e; rfl
theorem isInputVariant_skel (e : Elem) : isInputVariant (skel e) = isInputVariant e := by
  cases e; rfl
theorem inputName_skel (e : Elem) : inputName (skel e) = inputName e := by cases e; rfl
theorem inputType_skel (e : Elem) : inputType (skel e) = inputType e := by cases e; rfl
theorem inputChecked_skel (e : Elem) : inputChecked (skel e) = inputChecked e := by
  cases e; rfl
theorem skel_setAttr (e : Elem) (k : String) (v : Option String) :
    skel (e.setAttr k v) = (skel e).setAttr k v := by cases e; rfl
theorem skel_delAttr (e : Elem) (k : String) :
    skel (e.delAttr k) = (skel e).delAttr k := by cases e; rfl
theorem setAttr_mk (t : String) (a : Attrs) (s : String) (c : ElemList) (l : String)
    (k : String) (v : Option String) :
    (Elem.mk t a s c l).setAttr k v = .mk t (dictInsert a (pyLower k) v) s c l := rfl
theorem children_setAttr (e : Elem) (k : String) (v : Option String) :
    (e.setAttr k v).children = e.children := by cases e; rfl

theorem iterElems_mk (t : String) (a : Attrs) (s : String) (c : ElemList) (l : String) :
    iterElems (Elem.mk t a s c l) = Elem.mk t a s c l :: iterList c := by
  simp [iterElems]

theorem iterList_cons (e : Elem) (es : ElemList) :
    iterList (.cons e es) = iterElems e ++ iterList es := by
  simp [iterList]

theorem skel_clearStep (n : String) (e : Elem) :
    skel (clearStep n e) = clearStep n (skel e) := by
  unfold clearStep
  rw [isInputVariant_skel, inputName_skel, get_skel]
  by_cases h : isInputVariant e ∧ inputName e = some n ∧ (e.get "checked").isSome
  · rw [if_pos h, if_pos h, skel_delAttr]
  · rw [if_neg h, if_neg h]

mutual
theorem iter_mapTreeE (f : Elem → Elem) (hf : ∀ e, skel (f e) = f (skel e)) (e : Elem) :
    (iterElems (mapTree f e)).map skel = ((iterElems e).map skel).map f := by
  cases e with
  | mk t a s c l =>
    have hc := iter_mapTreeL f hf c
    show (iterElems (Elem.mk _ _ _ (mapTreeList f c) _)).map skel = _
    rw [iterElems_mk, iterElems_mk]
    simp only [List.map_cons, List.map_map, hc]
    congr 1
    show Elem.mk _ _ "" .nil "" = f (skel (Elem.mk t a s c l))
    rw [← hf]
    rfl

theorem iter_mapTreeL (f : Elem → Elem) (hf : ∀ e, skel (f e) = f (skel e)) (c : ElemList) :
    (iterList (mapTreeList f c)).map skel = ((iterList c).map skel).map f := by
  cases c with
  | nil => rfl
  | cons e es =>
    have h1 := iter_mapTreeE f hf e
    have h2 := iter_mapTreeL f hf es
    show (iterList (.cons (mapTree f e) (mapTreeList f es))).map skel = _
    rw [iterList_cons, iterList_cons]
    simp only [List.map_append, h1, h2]
end

theorem markList_cons (n v : String) (d : Bool) (e : Elem) (es : List Elem) :
    markList n v d (e :: es) =
      if ¬ d ∧ isInputVariant e ∧ inputName e = some n ∧ e.get "value" = some v then
        (e.setAttr "checked" (some "checked") :: es, true)
      else ((e :: (markList n v d es).1), (markList n v d es).2) := by
  rcases hm : markList n v d es with ⟨es', d'⟩
  rw [markList, hm]

theorem markList_true (n v : String) (l : List Elem) : markList n v true l = (l, true) := by
  induction l with
  | nil => rfl
  | cons e es ih =>
    rw [markList_cons, if_neg (by simp), ih]

theorem markList_append (n v : String) (A B : List Elem) (d : Bool) :
    markList n v d (A ++ B)
      = ((markList n v d A).1 ++ (markList n v (markList n v d A).2 B).1,
         (markList n v (markList n v d A).2 B).2) := by
  induction A generalizing d with
  | nil => simp [markList]
  | cons e es ih =>
    rw [List.cons_append, markList_cons, markList_cons]
    by_cases h : ¬ d ∧ isInputVariant e ∧ inputName e = some n ∧ e.get "value" = some v
    · rw [if_pos h, if_pos h]
      simp [markList_true]
    · rw [if_neg h, if_neg h]
      simp [ih]

mutual
theorem iter_markE (n v : String) (d : Bool) (e : Elem) :
    (iterElems (markFirstE n v d e).1).map skel
        = (markList n v d ((iterElems e).map skel)).1
    ∧ (markFirstE n v d e).2 = (markList n v d ((iterElems e).map skel)).2 := by
  cases e with
  | mk t a s c l =>
    rw [iterElems_mk, List.map_cons, markList_cons]
    have hcond : (¬ d ∧ isInputVariant (skel (Elem.mk t a s c l))
          ∧ inputName (skel (Elem.mk t a s c l)) = some n
          ∧ (skel (Elem.mk t a s c l)).get "value" = some v)
        ↔ (¬ d ∧ isInputVariant (Elem.mk t a s c l)
          ∧ inputName (Elem.mk t a s c l) = some n
          ∧ (Elem.mk t a s c l).get "value" = some v) := by
      rw [isInputVariant_skel, inputName_skel, get_skel]
    by_cases h : ¬ d ∧ isInputVariant (Elem.mk t a s c l)
        ∧ inputName (Elem.mk t a s c l) = some n
        ∧ (Elem.mk t a s c l).get "value" = some v
    · rw [if_pos (hcond.mpr h), markFirstE, if_pos h]
      exact ⟨rfl, rfl⟩
    · have hl := iter_markL n v d c
      rw [if_neg (fun hx => h (hcond.mp hx)), markFirstE, if_neg h]
      constructor
      · show (iterElems (Elem.mk t a s (markFirstL n v d c).1 l)).map skel = _
        rw [iterElems_mk, List.map_cons]
        congr 1
        exact hl.1
      · exact hl.2

theorem iter_markL (n v : String) (d : Bool) (c : ElemList) :
    (iterList (markFirstL n v d c).1).map skel
        = (markList n v d ((iterList c).map skel)).1
    ∧ (markFirstL n v d c).2 = (markList n v d ((iterList c).map skel)).2 := by
  cases c with
  | nil => exact ⟨rfl, rfl⟩
  | cons e es =>
    have he := iter_markE n v d e
    have hes := iter_markL n v (markFirstE n v d e).2 es
    have happ := markList_append n v ((iterElems e).map skel) ((iterList es).map skel) d
    rw [iterList_cons, List.map_append, happ]
    constructor
    · show (iterList (.cons (markFirstE n v d e).1
          (markFirstL n v (markFirstE n v d e).2 es).1)).map skel = _
      rw [iterList_cons, List.map_append]
      rw [he.1, hes.1, he.2]
    · show (markFirstL n v (markFirstE n v d e).2 es).2 = _
      rw [hes.2, he.2]
end



theorem dictGet_dictInsert_self {α : Type} (a : List (String × α)) (k : String) (v : α) :
    dictGet (dictInsert a k v) k = some v := by
  induction a with
  | nil => simp [dictInsert, dictGet]
  | cons kv rest ih =>
    obtain ⟨k₀, v₀⟩ := kv
    by_cases h : k₀ = k
    · simp [dictInsert, dictGet, h]
    · simp [dictInsert, dictGet, h, ih]

theorem dictGet_dictInsert_ne {α : Type} (a : List (String × α)) (k k' : String) (v : α)
    (h : k' ≠ k) : dictGet (dictInsert a k v) k' = dictGet a k' := by
  induction a with
  | nil => simp [dictInsert, dictGet, Ne.symm h]
  | cons kv rest ih =>
    obtain ⟨k₀, v₀⟩ := kv
    by_cases h0 : k₀ = k
    · subst h0
      simp [dictInsert, dictGet, Ne.symm h]
    · by_cases h1 : k₀ = k'
      · simp [dictInsert, dictGet, h0, h1, h]
      · simp [dictInsert, dictGet, h0, h1, ih]

theorem dictGet_dictDel_ne {α : Type} (a : List (String × α)) (k k' : String)
    (h : k' ≠ k) : dictGet (dictDel a k) k' = dictGet a k' := by
  induction a with
  | nil => simp [dictDel, dictGet]
  | cons kv rest ih =>
    obtain ⟨k₀, v₀⟩ := kv
    by_cases h0 : k₀ = k
    · subst h0
      simp [dictDel, dictGet, Ne.symm h]
    · by_cases h1 : k₀ = k'
      · simp [dictDel, dictGet, h0, h1, h]
      · simp [dictDel, dictGet, h0, h1, ih]

theorem dictGet_eq_none_of_not_mem {α : Type} (a : List (String × α)) (k : String)
    (h : k ∉ a.map Prod.fst) : dictGet a k = none := by
  induction a with
  | nil => rfl
  | cons kv rest ih =>
    obtain ⟨k₀, v₀⟩ := kv
    simp only [List.map_cons, List.mem_cons, not_or] at h
    simp [dictGet, Ne.symm h.1, ih h.2]

theorem dictGet_dictDel_self {α : Type} (a : List (String × α)) (k : String)
    (h : (a.map Prod.fst).Nodup) : dictGet (dictDel a k) k = none := by
  induction a with
  | nil => rfl
  | cons kv rest ih =>
    obtain ⟨k₀, v₀⟩ := kv
    simp only [List.map_cons, List.nodup_cons] at h
    by_cases h0 : k₀ = k
    · subst h0
      simp [dictDel, dictGet_eq_none_of_not_mem rest k₀ h.1]
    · simp [dictDel, dictGet, h0, ih h.2]

-- accessor preservation under setAttr / delAttr
theorem tag_setAttr (e : Elem) (k : String) (v : Option String) :
    (e.setAttr k v).tag = e.tag := by cases e; rfl
theorem tag_delAttr (e : Elem) (k : String) : (e.delAttr k).tag = e.tag := by cases e; rfl
theorem attrib_setAttr (e : Elem) (k : String) (v : Option String) :
    (e.setAttr k v).attrib = dictInsert e.attrib (pyLower k) v := by cases e; rfl
theorem attrib_delAttr (e : Elem) (k : String) :
    (e.delAttr k).attrib = dictDel e.attrib k := by cases e; rfl
theorem get_eq (e : Elem) (k : String) : e.get k = (dictGet e.attrib (pyLower k)).join := rfl

theorem get_setAttr_ne (e : Elem) (k k' : String) (v : Option String)
    (h : pyLower k' ≠ pyLower k) : (e.setAttr k v).get k' = e.get k' := by
  rw [get_eq, get_eq, attrib_setAttr, dictGet_dictInsert_ne _ _ _ _ h]

theorem get_setAttr_self (e : Elem) (k : String) (v : Option String) :
    (e.setAttr k v).get k = v.join := by
  rw [get_eq, attrib_setAttr, dictGet_dictInsert_self]
  cases v <;> rfl

theorem get_delAttr_ne (e : Elem) (k k' : String) (h : pyLower k' ≠ k) :
    (e.delAttr k).get k' = e.get k' := by
  rw [get_eq, get_eq, attrib_delAttr, dictGet_dictDel_ne _ _ _ h]

theorem isInputVariant_setAttr (e : Elem) (k : String) (v : Option String) :
    isInputVariant (e.setAttr k v) = isInputVariant e := by cases e; rfl
theorem isInputVariant_delAttr (e : Elem) (k : String) :
    isInputVariant (e.delAttr k) = isInputVariant e := by cases e; rfl

theorem inputName_setAttr_checked (e : Elem) (v : Option String) :
    inputName (e.setAttr "checked" v) = inputName e :=
  get_setAttr_ne e "checked" "name" v (by decide)

theorem inputName_delAttr_checked (e : Elem) :
    inputName (e.delAttr "checked") = inputName e :=
  get_delAttr_ne e "checked" "name" (by decide)

theorem inputType_setAttr_checked (e : Elem) (v : Option String) :
    inputType (e.setAttr "checked" v) = inputType e := by
  unfold inputType
  rw [tag_setAttr, get_setAttr_ne e "checked" "type" v (by decide)]

theorem inputType_delAttr_checked (e : Elem) :
    inputType (e.delAttr "checked") = inputType e := by
  unfold inputType
  rw [tag_delAttr, get_delAttr_ne e "checked" "type" (by decide)]

theorem get_value_delAttr_checked (e : Elem) :
    (e.delAttr "checked").get "value" = e.get "value" :=
  get_delAttr_ne e "checked" "value" (by decide)

theorem inputChecked_marked (e : Elem) (h : inputType e = "radio") :
    inputChecked (e.setAttr "checked" (some "checked")) = true := by
  unfold inputChecked
  rw [inputType_setAttr_checked, h, get_setAttr_self]
  simp

-- clearStep preservation
theorem isInputVariant_clearStep (n : String) (e : Elem) :
    isInputVariant (clearStep n e) = isInputVariant e := by
  unfold clearStep
  split
  · rw [isInputVariant_delAttr]
  · rfl

theorem inputName_clearStep (n : String) (e : Elem) :
    inputName (clearStep n e) = inputName e := by
  unfold clearStep
  split
  · exact inputName_delAttr_checked e
  · rfl

theorem inputType_clearStep (n : String) (e : Elem) :
    inputType (clearStep n e) = inputType e := by
  unfold clearStep
  split
  · exact inputType_delAttr_checked e
  · rfl

theorem get_value_clearStep (n : String) (e : Elem) :
    (clearStep n e).get "value" = e.get "value" := by
  unfold clearStep
  split
  · exact get_value_delAttr_checked e
  · rfl

theorem inputChecked_clearStep (n : String) (e : Elem)
    (hn : (e.attrib.map Prod.fst).Nodup)
    (hin : isInputVariant e = true) (hname : inputName e = some n) :
    inputChecked (clearStep n e) = false := by
  unfold clearStep
  by_cases hc : (e.get "checked").isSome
  · rw [if_pos ⟨hin, hname, hc⟩]
    unfold inputChecked
    have : (e.delAttr "checked").get "checked" = none := by
      rw [get_eq, attrib_delAttr]
      have : pyLower "checked" = "checked" := by decide
      rw [this, dictGet_dictDel_self _ _ hn]
      rfl
    rw [this]
    split <;> rfl
  · rw [if_neg (fun hx => hc hx.2.2)]
    unfold inputChecked
    simp only [Option.isSome] at hc ⊢
    split
    · cases hg : e.get "checked" with
      | none => rfl
      | some x => rw [hg] at hc; simp at hc
    · rfl



theorem markList_count_one (n v : String) (l : List Elem)
    (hunch : ∀ e ∈ l, isInputVariant e = true → inputName e = some n → inputChecked e = false)
    (hrad : ∀ e ∈ l, isInputVariant e = true → inputName e = some n → inputType e = "radio")
    (hex : ∃ e ∈ l, isInputVariant e = true ∧ inputName e = some n ∧ e.get "value" = some v) :
    ((markList n v false l).1.countP
      (fun e => isInputVariant e && decide (inputName e = some n) && inputChecked e)) = 1 := by
  induction l with
  | nil => obtain ⟨e, he, _⟩ := hex; cases he
  | cons e es ih =>
    rw [markList_cons]
    by_cases h : isInputVariant e = true ∧ inputName e = some n ∧ e.get "value" = some v
    · rw [if_pos ⟨by simp, h⟩]
      obtain ⟨hin, hname, hval⟩ := h
      show List.countP _ (e.setAttr "checked" (some "checked") :: es) = 1
      rw [List.countP_cons]
      have hrade : inputType e = "radio" := hrad e (by simp) hin hname
      have hψ : (isInputVariant (e.setAttr "checked" (some "checked"))
          && decide (inputName (e.setAttr "checked" (some "checked")) = some n)
          && inputChecked (e.setAttr "checked" (some "checked"))) = true := by
        rw [isInputVariant_setAttr, inputName_setAttr_checked,
            inputChecked_marked e hrade, hin, hname]
        simp
      rw [hψ]
      have h0 : es.countP (fun x => isInputVariant x && decide (inputName x = some n)
          && inputChecked x) = 0 := by
        rw [List.countP_eq_zero]
        intro x hx
        by_cases hm : isInputVariant x = true ∧ inputName x = some n
        · rw [hunch x (by simp [hx]) hm.1 hm.2]
          simp
        · rcases Decidable.not_and_iff_or_not.mp hm with hni | hnn
          · simp [hni]
          · simp [hnn]
      rw [h0]
      rfl
    · rw [if_neg (fun hx => h hx.2)]
      show List.countP _ (e :: (markList n v false es).1) = 1
      rw [List.countP_cons]
      have hψ : (isInputVariant e && decide (inputName e = some n) && inputChecked e) = false := by
        by_cases hm : isInputVariant e = true ∧ inputName e = some n
        · rw [hunch e (by simp) hm.1 hm.2]
          simp
        · rcases Decidable.not_and_iff_or_not.mp hm with hni | hnn
          · simp [hni]
          · simp [hnn]
      rw [hψ]
      have hex' : ∃ x ∈ es, isInputVariant x = true ∧ inputName x = some n
          ∧ x.get "value" = some v := by
        obtain ⟨e₀, he₀, hp⟩ := hex
        rcases List.mem_cons.mp he₀ with rfl | hmem
        · exact absurd hp h
        · exact ⟨e₀, hmem, hp⟩
      rw [ih (fun x hx => hunch x (by simp [hx])) (fun x hx => hrad x (by simp [hx])) hex']
      rfl



theorem attrib_skel (e : Elem) : (skel e).attrib = e.attrib := by cases e; rfl

theorem mem_namedInputs (form e : Elem) (N : String) :
    e ∈ namedInputs form N
      ↔ e ∈ iterElems form ∧ isInputVariant e = true ∧ inputName e = some N := by
  unfold namedInputs formInputs
  rw [List.mem_filter, List.mem_filter]
  simp only [decide_eq_true_eq]
  tauto

/-- C6 (amended): for a form whose inputs of name N number at least two
and are all radio buttons (with well-formed attribute dictionaries, as
Python dicts always are): if some member's value *attribute* equals v,
`set_field(N, v)` succeeds and afterwards exactly one member of the
group is checked; if no member's value attribute equals v, it raises
`UnsupportedForm` before any mutation, leaving the group unchanged. -/
theorem c6_amended_radio_group (form : Elem) (N v : String)
    (hw : ∀ e ∈ namedInputs form N, (e.attrib.map Prod.fst).Nodup)
    (h2 : 2 ≤ (namedInputs form N).length)
    (hr : ∀ e ∈ namedInputs form N, inputType e = "radio") :
    ((∃ e ∈ namedInputs form N, e.get "value" = some v) →
      ∃ form', setFieldE form N v = .ok form'
        ∧ ((namedInputs form' N).filter inputChecked).length = 1)
    ∧ ((¬ ∃ e ∈ namedInputs form N, e.get "value" = some v) →
      setFieldE form N v = .error .unsupportedForm) := by
  have hgt : (namedInputs form N).length > 1 := h2
  have hne : (namedInputs form N).any (fun x => decide (inputType x ≠ "radio")) = false := by
    rw [List.any_eq_false]
    intro x hx
    simp [hr x hx]
  constructor
  · intro hex
    have hany : (namedInputs form N).any (fun x => decide (x.get "value" = some v)) = true := by
      rw [List.any_eq_true]
      obtain ⟨e, he, hv⟩ := hex
      exact ⟨e, he, by simp [hv]⟩
    refine ⟨(markFirstE N v false (clearChecked N form)).1, ?_, ?_⟩
    · unfold setFieldE
      rw [if_pos hgt, if_neg (by rw [hne]; simp), if_pos (by rw [hany])]
    · -- the counting argument
      set form₁ := (markFirstE N v false (clearChecked N form)).1 with hform₁
      have hstep1 : ((namedInputs form₁ N).filter inputChecked).length
          = (iterElems form₁).countP
              (fun e => isInputVariant e && decide (inputName e = some N) && inputChecked e) := by
        unfold namedInputs formInputs
        rw [List.filter_filter, List.filter_filter, ← List.countP_eq_length_filter]
        apply List.countP_congr
        intro x _
        simp only [Bool.and_eq_true, decide_eq_true_eq]
        constructor
        · rintro ⟨⟨hc, hn⟩, hi⟩; exact ⟨⟨hi, hn⟩, hc⟩
        · rintro ⟨⟨hi, hn⟩, hc⟩; exact ⟨⟨hc, hn⟩, hi⟩
      have hstep2 : (iterElems form₁).countP
            (fun e => isInputVariant e && decide (inputName e = some N) && inputChecked e)
          = ((iterElems form₁).map skel).countP
              (fun e => isInputVariant e && decide (inputName e = some N) && inputChecked e) := by
        rw [List.countP_map]
        apply List.countP_congr
        intro x _
        show _ ↔ ((fun e => _) ∘ skel) x = true
        simp only [Function.comp_apply, isInputVariant_skel, inputName_skel, inputChecked_skel]
      have hstep3 : (iterElems form₁).map skel
          = (markList N v false (((iterElems form).map skel).map (clearStep N))).1 := by
        rw [hform₁, (iter_markE N v false (clearChecked N form)).1]
        show (markList N v false ((iterElems (mapTree (clearStep N) form)).map skel)).1 = _
        rw [iter_mapTreeE (clearStep N) (fun e => skel_clearStep N e) form]
      rw [hstep1, hstep2, hstep3]
      apply markList_count_one
      · intro x hx hin hname
        obtain ⟨y, hy, rfl⟩ := List.mem_map.mp hx
        obtain ⟨z, hz, rfl⟩ := List.mem_map.mp hy
        rw [isInputVariant_clearStep, isInputVariant_skel] at hin
        rw [inputName_clearStep, inputName_skel] at hname
        have hzmem : z ∈ namedInputs form N := (mem_namedInputs form z N).mpr ⟨hz, hin, hname⟩
        apply inputChecked_clearStep N (skel z)
        · rw [attrib_skel]
          exact hw z hzmem
        · rw [isInputVariant_skel]; exact hin
        · rw [inputName_skel]; exact hname
      · intro x hx hin hname
        obtain ⟨y, hy, rfl⟩ := List.mem_map.mp hx
        obtain ⟨z, hz, rfl⟩ := List.mem_map.mp hy
        rw [isInputVariant_clearStep, isInputVariant_skel] at hin
        rw [inputName_clearStep, inputName_skel] at hname
        have hzmem : z ∈ namedInputs form N := (mem_namedInputs form z N).mpr ⟨hz, hin, hname⟩
        rw [inputType_clearStep, inputType_skel]
        exact hr z hzmem
      · obtain ⟨e₀, he₀, hval₀⟩ := hex
        obtain ⟨hmem₀, hin₀, hname₀⟩ := (mem_namedInputs form e₀ N).mp he₀
        refine ⟨clearStep N (skel e₀), ?_, ?_, ?_, ?_⟩
        · exact List.mem_map.mpr ⟨skel e₀, List.mem_map.mpr ⟨e₀, hmem₀, rfl⟩, rfl⟩
        · rw [isInputVariant_clearStep, isInputVariant_skel]; exact hin₀
        · rw [inputName_clearStep, inputName_skel]; exact hname₀
        · rw [get_value_clearStep, get_skel]; exact hval₀
  · intro hnex
    have hany : (namedInputs form N).any (fun x => decide (x.get "value" = some v)) = false := by
      rw [List.any_eq_false]
      intro x hx
      simp only [decide_eq_true_eq]
      exact fun hv => hnex ⟨x, hx, hv⟩
    unfold setFieldE
    rw [if_pos hgt, if_neg (by rw [hne]; simp), if_neg (by rw [hany]; simp)]

theorem c6_amended_witness :
    ∃ form', setFieldE radioForm "g" "b" = .ok form'
      ∧ ((namedInputs form' "g").filter inputChecked).length = 1 :=
  (c6_amended_radio_group radioForm "g" "b" (by decide) (by decide) (by decide)).1
    (by decide)

/-! ### Character-class facts -/

theorem nameStart_nameChar {c : Char} (h : xmlNameStartChar c = true) :
    xmlNameChar c = true := by
  unfold xmlNameChar
  rw [h, Bool.true_or, Bool.true_or, Bool.true_or]

theorem nameChar_not_special {c : Char} (h : xmlNameChar c = true) :
    c ≠ '&' ∧ c ≠ '<' ∧ c ≠ '>' ∧ c ≠ '"' ∧ c ≠ '\'' ∧
      xmlWsChar c = false ∧ c ≠ '=' ∧ c ≠ '/' := by
  refine ⟨?_, ?_, ?_, ?_, ?_, ?_, ?_, ?_⟩
  · intro he; rw [he] at h; exact absurd h (by decide)
  · intro he; rw [he] at h; exact absurd h (by decide)
  · intro he; rw [he] at h; exact absurd h (by decide)
  · intro he; rw [he] at h; exact absurd h (by decide)
  · intro he; rw [he] at h; exact absurd h (by decide)
  · by_contra hw
    rw [Bool.not_eq_false] at hw
    simp only [xmlNameChar, xmlNameStartChar, xmlWsChar, Bool.or_eq_true,
      Bool.and_eq_true, decide_eq_true_eq] at h hw
    omega
  · intro he; rw [he] at h; exact absurd h (by decide)
  · intro he; rw [he] at h; exact absurd h (by decide)

theorem nameChar_xmlChar {c : Char} (h : xmlNameChar c = true) :
    xmlChar c = true := by
  simp only [xmlNameChar, xmlNameStartChar, xmlChar, Bool.or_eq_true,
    Bool.and_eq_true, decide_eq_true_eq] at h ⊢
  omega

theorem goodName_goodText {s : String} (h : goodNameB s = true) :
    goodTextB s = true := by
  unfold goodNameB at h
  unfold goodTextB
  cases hs : s.toList with
  | nil => rfl
  | cons c cr =>
    rw [hs] at h
    rw [Bool.and_eq_true] at h
    rw [List.all_cons, Bool.and_eq_true]
    constructor
    · exact nameChar_xmlChar (nameStart_nameChar h.1)
    · rw [List.all_eq_true] at h ⊢
      exact fun x hx => nameChar_xmlChar (h.2 x hx)

/-! ### `html.escape` facts -/

theorem escapeChar_eq_single (b : Bool) (c : Char)
    (h1 : c ≠ '&') (h2 : c ≠ '<') (h3 : c ≠ '>')
    (h4 : c ≠ '"') (h5 : c ≠ '\'') : escapeChar b c = [c] := by
  unfold escapeChar
  rw [if_neg h1, if_neg h2, if_neg h3,
      if_neg (fun hc => h4 hc.2), if_neg (fun hc => h5 hc.2)]

theorem escapeChar_false_eq_single (c : Char)
    (h1 : c ≠ '&') (h2 : c ≠ '<') (h3 : c ≠ '>') : escapeChar false c = [c] := by
  unfold escapeChar
  rw [if_neg h1, if_neg h2, if_neg h3,
      if_neg (fun hc => Bool.false_ne_true hc.1),
      if_neg (fun hc => Bool.false_ne_true hc.1)]

theorem escapeChar_nameChar (b : Bool) {c : Char} (h : xmlNameChar c = true) :
    escapeChar b c = [c] := by
  obtain ⟨h1, h2, h3, h4, h5, -, -, -⟩ := nameChar_not_special h
  exact escapeChar_eq_single b c h1 h2 h3 h4 h5

theorem escape_flatten_of_nameChars (b : Bool) :
    ∀ (l : List Char), l.all xmlNameChar = true →
    (l.map (escapeChar b)).flatten = l := by
  intro l
  induction l with
  | nil => intro _; rfl
  | cons c cr ih =>
    intro h
    rw [List.all_cons, Bool.and_eq_true] at h
    rw [List.map_cons, List.flatten_cons, escapeChar_nameChar b h.1, ih h.2,
      List.singleton_append]

theorem one_le_escapeChar_length (b : Bool) (c : Char) :
    1 ≤ (escapeChar b c).length := by
  unfold escapeChar
  split
  · decide
  · split
    · decide
    · split
      · decide
      · split
        · decide
        · split
          · decide
          · exact Nat.le_refl 1

theorem length_le_escLen (b : Bool) (txt : List Char) :
    txt.length ≤ ((txt.map (escapeChar b)).flatten).length := by
  induction txt with
  | nil => exact Nat.le_refl 0
  | cons c cr ih =>
    rw [List.map_cons, List.flatten_cons, List.length_cons, List.length_append]
    have := one_le_escapeChar_length b c
    omega

/-! ### Text- and attribute-value parsing of escaped output -/

theorem pText_succ_stop (f : Nat) (r : List Char) :
    pText (f + 1) ('<' :: r) = some ('<' :: r) := rfl

theorem pText_succ_nil (f : Nat) : pText (f + 1) [] = some [] := rfl

theorem not_prefix_head {a b : Char} {l m : List Char} (h : a ≠ b) :
    ¬(a :: l <+: b :: m) := by
  rintro ⟨t, ht⟩
  rw [List.cons_append] at ht
  injection ht with h1 _
  exact h h1

theorem pRef_amp (r : List Char) : pRef ('a' :: 'm' :: 'p' :: ';' :: r) = some r := by
  unfold pRef
  have h : "amp;".toList <+: 'a' :: 'm' :: 'p' :: ';' :: r := ⟨r, rfl⟩
  rw [if_pos h]
  rfl

theorem pRef_lt (r : List Char) : pRef ('l' :: 't' :: ';' :: r) = some r := by
  unfold pRef
  rw [show "amp;".toList = 'a' :: 'm' :: 'p' :: ';' :: [] from rfl]
  have h : "lt;".toList <+: 'l' :: 't' :: ';' :: r := ⟨r, rfl⟩
  rw [if_neg (not_prefix_head (by decide)), if_pos h]
  rfl

theorem pRef_gt (r : List Char) : pRef ('g' :: 't' :: ';' :: r) = some r := by
  unfold pRef
  rw [show "amp;".toList = 'a' :: 'm' :: 'p' :: ';' :: [] from rfl,
    show "lt;".toList = 'l' :: 't' :: ';' :: [] from rfl]
  have h : "gt;".toList <+: 'g' :: 't' :: ';' :: r := ⟨r, rfl⟩
  rw [if_neg (not_prefix_head (by decide)), if_neg (not_prefix_head (by decide)),
    if_pos h]
  rfl

theorem pRef_quot (r : List Char) :
    pRef ('q' :: 'u' :: 'o' :: 't' :: ';' :: r) = some r := by
  unfold pRef
  rw [show "amp;".toList = 'a' :: 'm' :: 'p' :: ';' :: [] from rfl,
    show "lt;".toList = 'l' :: 't' :: ';' :: [] from rfl,
    show "gt;".toList = 'g' :: 't' :: ';' :: [] from rfl]
  have h : "quot;".toList <+: 'q' :: 'u' :: 'o' :: 't' :: ';' :: r := ⟨r, rfl⟩
  rw [if_neg (not_prefix_head (by decide)), if_neg (not_prefix_head (by decide)),
    if_neg (not_prefix_head (by decide)), if_pos h]
  rfl

theorem pRef_x27 (r : List Char) :
    pRef ('#' :: 'x' :: '2' :: '7' :: ';' :: r) = some r := by
  unfold pRef
  rw [show "amp;".toList = 'a' :: 'm' :: 'p' :: ';' :: [] from rfl,
    show "lt;".toList = 'l' :: 't' :: ';' :: [] from rfl,
    show "gt;".toList = 'g' :: 't' :: ';' :: [] from rfl,
    show "quot;".toList = 'q' :: 'u' :: 'o' :: 't' :: ';' :: [] from rfl,
    show "apos;".toList = 'a' :: 'p' :: 'o' :: 's' :: ';' :: [] from rfl]
  rw [if_neg (not_prefix_head (by decide)), if_neg (not_prefix_head (by decide)),
    if_neg (not_prefix_head (by decide)), if_neg (not_prefix_head (by decide)),
    if_neg (not_prefix_head (by decide))]
  rfl

theorem pText_succ_amp (f : Nat) (r : List Char) :
    pText (f + 1) ('&' :: 'a' :: 'm' :: 'p' :: ';' :: r) = pText f r := by
  conv_lhs => rw [pText]
  simp only []
  rw [if_pos trivial, pRef_amp, if_neg (by decide : ¬('&' = '<'))]

theorem pText_succ_lt (f : Nat) (r : List Char) :
    pText (f + 1) ('&' :: 'l' :: 't' :: ';' :: r) = pText f r := by
  conv_lhs => rw [pText]
  simp only []
  rw [if_pos trivial, pRef_lt, if_neg (by decide : ¬('&' = '<'))]

theorem pText_succ_gt (f : Nat) (r : List Char) :
    pText (f + 1) ('&' :: 'g' :: 't' :: ';' :: r) = pText f r := by
  conv_lhs => rw [pText]
  simp only []
  rw [if_pos trivial, pRef_gt, if_neg (by decide : ¬('&' = '<'))]

theorem pText_succ_char (f : Nat) (c : Char) (r : List Char)
    (h1 : c ≠ '<') (h2 : c ≠ '&') (h3 : xmlChar c = true) (h4 : c ≠ '>') :
    pText (f + 1) (c :: r) = pText f r := by
  show (if c = '<' then some (c :: r)
    else if c = '&' then
      match pRef r with
      | some rest' => pText f rest'
      | none => none
    else if xmlChar c ∧ c ≠ '>' then pText f r else none) = pText f r
  rw [if_neg h1, if_neg h2, if_pos ⟨h3, h4⟩]

theorem pText_escape (txt : List Char) : ∀ (fuel : Nat) (rest : List Char),
    txt.all xmlChar = true →
    (rest = [] ∨ ∃ rr, rest = '<' :: rr) →
    txt.length < fuel →
    pText fuel ((txt.map (escapeChar false)).flatten ++ rest) = some rest := by
  induction txt with
  | nil =>
    intro fuel rest _ hrest hfuel
    obtain ⟨f, rfl⟩ : ∃ f, fuel = f + 1 := ⟨fuel - 1, by omega⟩
    rw [List.map_nil, List.flatten_nil, List.nil_append]
    rcases hrest with h | ⟨rr, h⟩
    · rw [h]; exact pText_succ_nil f
    · rw [h]; exact pText_succ_stop f rr
  | cons c txt ih =>
    intro fuel rest hall hrest hfuel
    rw [List.all_cons, Bool.and_eq_true] at hall
    obtain ⟨f, rfl⟩ : ∃ f, fuel = f + 1 := ⟨fuel - 1, by omega⟩
    have hfuel' : txt.length < f := by
      rw [List.length_cons] at hfuel; omega
    rw [List.map_cons, List.flatten_cons, List.append_assoc]
    by_cases h1 : c = '&'
    · subst h1
      rw [show escapeChar false '&' = '&' :: 'a' :: 'm' :: 'p' :: ';' :: [] from rfl]
      rw [List.cons_append, List.cons_append, List.cons_append, List.cons_append,
        List.cons_append, List.nil_append]
      rw [pText_succ_amp]
      exact ih f rest hall.2 hrest hfuel'
    · by_cases h2 : c = '<'
      · subst h2
        rw [show escapeChar false '<' = '&' :: 'l' :: 't' :: ';' :: [] from rfl]
        rw [List.cons_append, List.cons_append, List.cons_append, List.cons_append,
          List.nil_append]
        rw [pText_succ_lt]
        exact ih f rest hall.2 hrest hfuel'
      · by_cases h3 : c = '>'
        · subst h3
          rw [show escapeChar false '>' = '&' :: 'g' :: 't' :: ';' :: [] from rfl]
          rw [List.cons_append, List.cons_append, List.cons_append, List.cons_append,
            List.nil_append]
          rw [pText_succ_gt]
          exact ih f rest hall.2 hrest hfuel'
        · rw [escapeChar_false_eq_single c h1 h2 h3]
          rw [List.cons_append, List.nil_append]
          rw [pText_succ_char f c _ h2 h1 hall.1 h3]
          exact ih f rest hall.2 hrest hfuel'

theorem pAV_close (f : Nat) (r : List Char) :
    pAttrValue (f + 1) '"' ('"' :: r) = some r := by
  conv_lhs => rw [pAttrValue]
  simp only []
  rw [if_pos trivial]

theorem pAV_amp (f : Nat) (r : List Char) :
    pAttrValue (f + 1) '"' ('&' :: 'a' :: 'm' :: 'p' :: ';' :: r) =
      pAttrValue f '"' r := by
  conv_lhs => rw [pAttrValue]
  simp only []
  rw [if_neg (by decide : ¬('&' = '"')), if_pos trivial, pRef_amp]

theorem pAV_lt (f : Nat) (r : List Char) :
    pAttrValue (f + 1) '"' ('&' :: 'l' :: 't' :: ';' :: r) =
      pAttrValue f '"' r := by
  conv_lhs => rw [pAttrValue]
  simp only []
  rw [if_neg (by decide : ¬('&' = '"')), if_pos trivial, pRef_lt]

theorem pAV_gt (f : Nat) (r : List Char) :
    pAttrValue (f + 1) '"' ('&' :: 'g' :: 't' :: ';' :: r) =
      pAttrValue f '"' r := by
  conv_lhs => rw [pAttrValue]
  simp only []
  rw [if_neg (by decide : ¬('&' = '"')), if_pos trivial, pRef_gt]

theorem pAV_quot (f : Nat) (r : List Char) :
    pAttrValue (f + 1) '"' ('&' :: 'q' :: 'u' :: 'o' :: 't' :: ';' :: r) =
      pAttrValue f '"' r := by
  conv_lhs => rw [pAttrValue]
  simp only []
  rw [if_neg (by decide : ¬('&' = '"')), if_pos trivial, pRef_quot]

theorem pAV_x27 (f : Nat) (r : List Char) :
    pAttrValue (f + 1) '"' ('&' :: '#' :: 'x' :: '2' :: '7' :: ';' :: r) =
      pAttrValue f '"' r := by
  conv_lhs => rw [pAttrValue]
  simp only []
  rw [if_neg (by decide : ¬('&' = '"')), if_pos trivial, pRef_x27]

theorem pAV_char (f : Nat) (c : Char) (r : List Char)
    (h1 : c ≠ '"') (h2 : c ≠ '&') (h3 : xmlChar c = true) (h4 : c ≠ '<') :
    pAttrValue (f + 1) '"' (c :: r) = pAttrValue f '"' r := by
  conv_lhs => rw [pAttrValue]
  rw [if_neg h1, if_neg h2, if_pos ⟨h3, h4⟩]

theorem pAttrValue_escape (txt : List Char) : ∀ (fuel : Nat) (rest : List Char),
    txt.all xmlChar = true →
    txt.length < fuel →
    pAttrValue fuel '"' ((txt.map (escapeChar true)).flatten ++ '"' :: rest) =
      some rest := by
  induction txt with
  | nil =>
    intro fuel rest _ hfuel
    obtain ⟨f, rfl⟩ : ∃ f, fuel = f + 1 := ⟨fuel - 1, by omega⟩
    rw [List.map_nil, List.flatten_nil, List.nil_append]
    exact pAV_close f rest
  | cons c txt ih =>
    intro fuel rest hall hfuel
    rw [List.all_cons, Bool.and_eq_true] at hall
    obtain ⟨f, rfl⟩ : ∃ f, fuel = f + 1 := ⟨fuel - 1, by omega⟩
    have hfuel' : txt.length < f := by
      rw [List.length_cons] at hfuel; omega
    rw [List.map_cons, List.flatten_cons, List.append_assoc]
    by_cases h1 : c = '&'
    · subst h1
      rw [show escapeChar true '&' = '&' :: 'a' :: 'm' :: 'p' :: ';' :: [] from rfl]
      rw [List.cons_append, List.cons_append, List.cons_append, List.cons_append,
        List.cons_append, List.nil_append, pAV_amp]
      exact ih f rest hall.2 hfuel'
    · by_cases h2 : c = '<'
      · subst h2
        rw [show escapeChar true '<' = '&' :: 'l' :: 't' :: ';' :: [] from rfl]
        rw [List.cons_append, List.cons_append, List.cons_append, List.cons_append,
          List.nil_append, pAV_lt]
        exact ih f rest hall.2 hfuel'
      · by_cases h3 : c = '>'
        · subst h3
          rw [show escapeChar true '>' = '&' :: 'g' :: 't' :: ';' :: [] from rfl]
          rw [List.cons_append, List.cons_append, List.cons_append, List.cons_append,
            List.nil_append, pAV_gt]
          exact ih f rest hall.2 hfuel'
        · by_cases h4 : c = '"'
          · subst h4
            rw [show escapeChar true '"' =
              '&' :: 'q' :: 'u' :: 'o' :: 't' :: ';' :: [] from rfl]
            rw [List.cons_append, List.cons_append, List.cons_append, List.cons_append,
              List.cons_append, List.cons_append, List.nil_append, pAV_quot]
            exact ih f rest hall.2 hfuel'
          · by_cases h5 : c = '\''
            · subst h5
              rw [show escapeChar true '\'' =
                '&' :: '#' :: 'x' :: '2' :: '7' :: ';' :: [] from rfl]
              rw [List.cons_append, List.cons_append, List.cons_append,
                List.cons_append, List.cons_append, List.cons_append,
                List.nil_append, pAV_x27]
              exact ih f rest hall.2 hfuel'
            · rw [escapeChar_eq_single true c h1 h2 h3 h4 h5,
                List.cons_append, List.nil_append,
                pAV_char f c _ h4 h1 hall.1 h2]
              exact ih f rest hall.2 hfuel'

/-! ### Name parsing -/

theorem takeWhile_append_all {p : Char → Bool} :
    ∀ (xs ys : List Char), (∀ x ∈ xs, p x = true) →
    (xs ++ ys).takeWhile p = xs ++ ys.takeWhile p := by
  intro xs ys
  induction xs with
  | nil => intro _; rfl
  | cons x xr ih =>
    intro h
    rw [List.cons_append, List.takeWhile_cons, h x (by simp), if_pos rfl,
      ih (fun a ha => h a (by simp [ha])), List.cons_append]

theorem dropWhile_append_all {p : Char → Bool} :
    ∀ (xs ys : List Char), (∀ x ∈ xs, p x = true) →
    (xs ++ ys).dropWhile p = ys.dropWhile p := by
  intro xs ys
  induction xs with
  | nil => intro _; rfl
  | cons x xr ih =>
    intro h
    rw [List.cons_append, List.dropWhile_cons, h x (by simp), if_pos rfl]
    exact ih (fun a ha => h a (by simp [ha]))

theorem mk_toList (s : String) : String.mk s.toList = s := rfl

theorem head_not_nameChar_takeWhile (next : List Char)
    (hnext : ∀ c, next.head? = some c → xmlNameChar c = false) :
    next.takeWhile xmlNameChar = [] ∧ next.dropWhile xmlNameChar = next := by
  cases next with
  | nil => exact ⟨rfl, rfl⟩
  | cons c cr =>
    have hc := hnext c rfl
    rw [List.takeWhile_cons, List.dropWhile_cons, hc]
    exact ⟨rfl, rfl⟩

theorem goodName_parts {t : String} (h : goodNameB t = true) :
    ∃ c cr, t.toList = c :: cr ∧ xmlNameStartChar c = true ∧
      cr.all xmlNameChar = true := by
  unfold goodNameB at h
  cases hs : t.toList with
  | nil => rw [hs] at h; exact absurd h (by decide)
  | cons c cr =>
    rw [hs, Bool.and_eq_true] at h
    exact ⟨c, cr, rfl, h.1, h.2⟩

theorem goodName_all_nameChar {t : String} (h : goodNameB t = true) :
    t.toList.all xmlNameChar = true := by
  obtain ⟨c, cr, hct, hstart, hrest⟩ := goodName_parts h
  rw [hct, List.all_cons, Bool.and_eq_true]
  exact ⟨nameStart_nameChar hstart, hrest⟩

theorem pName_good (t : String) (hgood : goodNameB t = true) (next : List Char)
    (hnext : ∀ c, next.head? = some c → xmlNameChar c = false) :
    pName (t.toList ++ next) = some (t, next) := by
  obtain ⟨c, cr, hct, hstart, hrest⟩ := goodName_parts hgood
  obtain ⟨htake, hdrop⟩ := head_not_nameChar_takeWhile next hnext
  rw [hct, List.cons_append]
  unfold pName
  simp only []
  rw [if_pos hstart]
  rw [takeWhile_append_all cr next (fun a ha => List.all_eq_true.mp hrest a ha),
    dropWhile_append_all cr next (fun a ha => List.all_eq_true.mp hrest a ha),
    htake, hdrop, List.append_nil]
  rw [show (c :: cr : List Char) = t.toList from hct.symm, mk_toList]

/-! ### Attribute serialization -/

theorem attrsFold_eq : ∀ (al : Attrs), (∀ kv ∈ al, ∃ v, kv.2 = some v) →
    ∀ (acc : String),
    (al.foldlM (fun acc kv =>
      match kv.2 with
      | none => none
      | some v => some (acc ++ " " ++ escapeQ kv.1 ++ "=\x22" ++ escapeQ v ++ "\x22")) acc)
    = some (String.mk (acc.toList ++ attrsL al)) := by
  intro al
  induction al with
  | nil =>
    intro _ acc
    rw [List.foldlM_nil]
    rw [show attrsL [] = [] from rfl, List.append_nil, mk_toList]
    rfl
  | cons kv rest ih =>
    intro h acc
    obtain ⟨v, hv⟩ := h kv (by simp)
    rw [List.foldlM_cons, hv]
    simp only [Option.bind_eq_bind, Option.some_bind]
    rw [ih (fun kv' h' => h kv' (by simp [h']))]
    congr 2
    show (acc ++ " " ++ escapeQ kv.1 ++ "=\x22" ++ escapeQ v ++ "\x22").data ++ attrsL rest
        = acc.data ++ attrsL (kv :: rest)
    rw [show attrsL (kv :: rest) = attrPieceL kv ++ attrsL rest from rfl,
        show attrPieceL kv = ' ' :: ((kv.1.toList.map (escapeChar true)).flatten ++
          '=' :: '"' :: (((kv.2.getD "").toList.map (escapeChar true)).flatten ++ ['"'])) from rfl,
        hv]
    simp only [String.data_append]
    rw [show ((some v).getD "" : String) = v from rfl,
        show (escapeQ kv.1).data = (kv.1.toList.map (escapeChar true)).flatten from rfl,
        show (escapeQ v).data = (v.toList.map (escapeChar true)).flatten from rfl]
    simp only [List.append_assoc, List.cons_append, List.singleton_append, List.nil_append]

theorem attrsString_eq (a : Attrs)
    (h : ∀ kv ∈ sortedAttrs a, ∃ v, kv.2 = some v) :
    attrsString a = some (String.mk (attrsL (sortedAttrs a))) := by
  unfold attrsString
  rw [attrsFold_eq (sortedAttrs a) h ""]
  rfl

theorem pAttrs_parse (rest : List Char) (sc : Char) (ss : List Char)
    (hstop : rest.dropWhile xmlWsChar = sc :: ss) (hsc : sc = '/' ∨ sc = '>') :
    ∀ (al : Attrs) (fuel : Nat) (names : List String),
    (∀ kv ∈ al, goodNameB kv.1 = true ∧ ∃ v, kv.2 = some v ∧ goodTextB v = true) →
    (al.map Prod.fst).Nodup →
    (∀ kv ∈ al, kv.1 ∉ names) →
    (attrsL al).length < fuel →
    pAttrs fuel (attrsL al ++ rest) names = some (sc :: ss) := by
  intro al
  induction al with
  | nil =>
    intro fuel names _ _ _ hfuel
    obtain ⟨f, rfl⟩ : ∃ f, fuel = f + 1 := ⟨fuel - 1, by omega⟩
    rw [show attrsL [] = [] from rfl, List.nil_append]
    conv_lhs => rw [pAttrs]
    rw [hstop]
    simp only []
    rw [if_pos hsc]
  | cons kv al' ih =>
    intro fuel names hgood hnodup hdisj hfuel
    obtain ⟨hkgood, v, hv, hvgood⟩ := hgood kv (by simp)
    obtain ⟨f, rfl⟩ : ∃ f, fuel = f + 1 := ⟨fuel - 1, by omega⟩
    obtain ⟨kc, kcr, hct, hkstart, hkrest⟩ := goodName_parts hkgood
    have hknc := nameStart_nameChar hkstart
    obtain ⟨-, -, -, -, -, hkws, -, hkslash⟩ := nameChar_not_special hknc
    have hkgt : kc ≠ '>' := (nameChar_not_special hknc).2.2.1
    have hkesc : (kv.1.toList.map (escapeChar true)).flatten = kv.1.toList :=
      escape_flatten_of_nameChars true _ (goodName_all_nameChar hkgood)
    have hpl : attrPieceL kv = ' ' :: (kv.1.toList ++
        '=' :: '"' :: ((v.toList.map (escapeChar true)).flatten ++ ['"'])) := by
      rw [show attrPieceL kv = ' ' :: ((kv.1.toList.map (escapeChar true)).flatten ++
        '=' :: '"' :: (((kv.2.getD "").toList.map (escapeChar true)).flatten ++ ['"'])) from rfl,
        hkesc, hv]
      rfl
    have hlenv := length_le_escLen true v.toList
    have hlenpl : (attrPieceL kv).length =
        kv.1.toList.length + ((v.toList.map (escapeChar true)).flatten).length + 4 := by
      rw [hpl]
      simp [List.length_append]
      omega
    have hlencons : (attrsL (kv :: al')).length =
        (attrPieceL kv).length + (attrsL al').length := by
      rw [show attrsL (kv :: al') = attrPieceL kv ++ attrsL al' from rfl,
        List.length_append]
    have hklen : 1 ≤ kv.1.toList.length := by rw [hct]; simp
    rw [show attrsL (kv :: al') = attrPieceL kv ++ attrsL al' from rfl, hpl]
    simp only [List.cons_append, List.append_assoc, List.singleton_append]
    conv_lhs => rw [pAttrs]
    rw [List.takeWhile_cons, List.dropWhile_cons,
      show xmlWsChar ' ' = true from by decide, if_pos rfl, if_pos rfl]
    rw [hct, List.cons_append, List.takeWhile_cons, List.dropWhile_cons, hkws]
    rw [if_neg Bool.false_ne_true, if_neg Bool.false_ne_true]
    simp only []
    rw [if_neg (fun h => h.elim hkslash hkgt)]
    rw [if_neg (by decide : ¬((' ' :: [] : List Char) = []))]
    rw [← List.cons_append, ← hct]
    rw [pName_good kv.1 hkgood _ (fun c hc => by
      rw [← Option.some.inj hc]; decide)]
    simp only []
    rw [if_neg (hdisj kv (by simp))]
    rw [if_pos (Or.inl trivial), List.nil_append]
    rw [pAttrValue_escape v.toList f _ hvgood (by omega)]
    simp only []
    exact ih f (kv.1 :: names)
      (fun kv' h' => hgood kv' (by simp [h']))
      (by rw [List.map_cons, List.nodup_cons] at hnodup; exact hnodup.2)
      (fun kv' h' => by
        rw [List.mem_cons]
        push_neg
        constructor
        · intro heq
          rw [List.map_cons, List.nodup_cons] at hnodup
          exact hnodup.1 (heq ▸ List.mem_map_of_mem Prod.fst h')
        · exact hdisj kv' (by simp [h']))
      (by omega)

/-! ### Attribute-dictionary goodness transfer -/

theorem insertByKey_perm (kv : String × Option String) :
    ∀ l : Attrs, (insertByKey kv l).Perm (kv :: l) := by
  intro l
  induction l with
  | nil => exact List.Perm.refl _
  | cons x xs ih =>
    rw [insertByKey]
    split
    · exact List.Perm.refl _
    · exact (List.Perm.cons x ih).trans (List.Perm.swap kv x xs)

theorem sortedAttrs_perm (a : Attrs) : (sortedAttrs a).Perm a := by
  unfold sortedAttrs
  induction a with
  | nil => exact List.Perm.refl _
  | cons kv rest ih =>
    rw [List.foldr_cons]
    exact (insertByKey_perm kv _).trans (List.Perm.cons kv ih)

theorem goodAttrsB_cons {k : String} {vv : Option String} {xs : Attrs}
    (h : goodAttrsB ((k, vv) :: xs) = true) :
    goodNameB k = true ∧ (∃ v, vv = some v ∧ goodTextB v = true) ∧
      (xs.any (fun kv => kv.1 = k)) = false ∧ goodAttrsB xs = true := by
  cases vv with
  | none =>
    rw [goodAttrsB] at h
    exact absurd h (by simp)
  | some v =>
    rw [goodAttrsB] at h
    rw [Bool.and_eq_true, Bool.and_eq_true, Bool.and_eq_true] at h
    refine ⟨h.1.1.1, ⟨v, rfl, h.1.1.2⟩, ?_, h.2⟩
    rw [← Bool.not_eq_true']
    exact h.1.2

theorem goodAttrsB_mem {a : Attrs} (h : goodAttrsB a = true) :
    ∀ kv ∈ a, goodNameB kv.1 = true ∧ ∃ v, kv.2 = some v ∧ goodTextB v = true := by
  induction a with
  | nil => intro kv hkv; exact absurd hkv (by simp)
  | cons x xs ih =>
    obtain ⟨k, vv⟩ := x
    obtain ⟨hk, ⟨v, hvv, hvg⟩, hany, hxs⟩ := goodAttrsB_cons h
    intro kv hkv
    rcases List.mem_cons.mp hkv with rfl | hmem
    · exact ⟨hk, v, hvv, hvg⟩
    · exact ih hxs kv hmem

theorem goodAttrsB_nodup {a : Attrs} (h : goodAttrsB a = true) :
    (a.map Prod.fst).Nodup := by
  induction a with
  | nil => exact List.nodup_nil
  | cons x xs ih =>
    obtain ⟨k, vv⟩ := x
    obtain ⟨hk, ⟨v, hvv, hvg⟩, hany, hxs⟩ := goodAttrsB_cons h
    rw [List.map_cons, List.nodup_cons]
    refine ⟨?_, ih hxs⟩
    intro hmem
    obtain ⟨kv, hkv, hfst⟩ := List.mem_map.mp hmem
    rw [List.any_eq_false] at hany
    exact hany kv hkv (decide_eq_true hfst)

theorem goodAttrs_sorted_mem {a : Attrs} (h : goodAttrsB a = true) :
    ∀ kv ∈ sortedAttrs a,
      goodNameB kv.1 = true ∧ ∃ v, kv.2 = some v ∧ goodTextB v = true :=
  fun kv hkv => goodAttrsB_mem h kv ((sortedAttrs_perm a).mem_iff.mp hkv)

theorem goodAttrs_sorted_nodup {a : Attrs} (h : goodAttrsB a = true) :
    ((sortedAttrs a).map Prod.fst).Nodup :=
  (((sortedAttrs_perm a).map Prod.fst).nodup_iff).mpr (goodAttrsB_nodup h)

theorem attrsL_shape (al : Attrs) :
    attrsL al = [] ∨ ∃ x, attrsL al = ' ' :: x := by
  cases al with
  | nil => exact Or.inl rfl
  | cons kv rest =>
    refine Or.inr ⟨((kv.1.toList.map (escapeChar true)).flatten ++
      '=' :: '"' :: (((kv.2.getD "").toList.map (escapeChar true)).flatten ++ ['"'])) ++
      attrsL rest, ?_⟩
    rfl

theorem take_two_shape {l : List Char} (h : l.take 2 = ['<', '/']) :
    ∃ lr, l = '<' :: '/' :: lr := by
  cases l with
  | nil => exact absurd h (by decide)
  | cons a l' =>
    cases l' with
    | nil =>
      rw [List.take_succ_cons] at h
      exact absurd h (by simp)
    | cons b l'' =>
      rw [List.take_succ_cons, List.take_succ_cons] at h
      refine ⟨l'', ?_⟩
      injection h with h1 h2
      injection h2 with h2 _
      rw [h1, h2]

/-! ### Element goodness projections -/

theorem goodElemB_fields {e : Elem} (h : goodElemB e = true) :
    goodNameB e.tag = true ∧ goodAttrsB e.attrib = true ∧
      goodTextB e.text = true ∧ goodListB e.children = true ∧
      goodTextB e.tail = true := by
  cases e with
  | mk t a tx c tl =>
    rw [goodElemB] at h
    rw [Bool.and_eq_true, Bool.and_eq_true, Bool.and_eq_true, Bool.and_eq_true] at h
    exact ⟨h.1.1.1.1, h.1.1.1.2, h.1.1.2, h.1.2, h.2⟩

theorem goodListB_cons {e : Elem} {es : ElemList}
    (h : goodListB (.cons e es) = true) :
    goodElemB e = true ∧ goodListB es = true := by
  rw [goodListB, Bool.and_eq_true] at h
  exact h

/-! ### The serializer round-trip: `outer_xml` output of a good tree is
parsed back by the strict checker -/

mutual
theorem outerXml_roundtrip : ∀ (e : Elem), goodElemB e = true →
    ∃ s : List Char, outerXml e = some (String.mk s) ∧ 4 ≤ s.length ∧
      (∃ c2 cs2, s = '<' :: c2 :: cs2 ∧ xmlNameStartChar c2 = true) ∧
      ∀ (rest : List Char) (fuel : Nat), s.length ≤ fuel →
        pElem fuel (s ++ rest) = some rest
  | .mk t a tx c tl, hgood => by
    obtain ⟨ht, ha, htx, hc, htl⟩ := goodElemB_fields hgood
    simp only [Elem.tag, Elem.attrib, Elem.text, Elem.children, Elem.tail]
      at ht ha htx hc htl
    obtain ⟨kc, kcr, hct, hkstart, hkrest⟩ := goodName_parts ht
    have hklen : 1 ≤ t.toList.length := by rw [hct]; simp
    have hA : attrsString a = some (String.mk (attrsL (sortedAttrs a))) :=
      attrsString_eq a (fun kv hkv =>
        ((goodAttrs_sorted_mem ha) kv hkv).2.elim fun v hv => ⟨v, hv.1⟩)
    obtain ⟨S, hcx, hpc⟩ := contentXml_roundtrip c hc
    have hescq : escapeQ t = t := by
      unfold escapeQ
      rw [escape_flatten_of_nameChars true _ (goodName_all_nameChar ht), mk_toList]
    have hnexthead : ∀ (tail2 : List Char), ∀ ch,
        (attrsL (sortedAttrs a) ++ (' ' :: tail2)).head? = some ch ∨
        (attrsL (sortedAttrs a) ++ ('>' :: tail2)).head? = some ch →
        xmlNameChar ch = false := by
      intro tail2 ch hch
      rcases attrsL_shape (sortedAttrs a) with hA0 | ⟨x, hA0⟩ <;>
        rcases hch with hch | hch <;>
        rw [hA0] at hch <;>
        first
        | (rw [List.nil_append] at hch
           rw [← Option.some.inj hch]; decide)
        | (rw [List.cons_append] at hch
           rw [← Option.some.inj hch]; decide)
    by_cases hinner :
        ((tx.toList.map (escapeChar false)).flatten ++ S : List Char) = []
    · -- the self-closing branch
      refine ⟨'<' :: (t.toList ++ (attrsL (sortedAttrs a) ++ [' ', '/', '>'])),
        ?_, ?_, ?_, ?_⟩
      · rw [outerXml, hA, hcx]
        simp only [Option.bind_eq_bind, Option.some_bind]
        rw [if_neg (by
          show ¬((escapeNoQ tx ++ String.mk S).length > 0)
          rw [show (escapeNoQ tx ++ String.mk S).length =
            ((tx.toList.map (escapeChar false)).flatten ++ S).length from rfl, hinner]
          simp)]
        show some _ = _
        congr 1
        show String.mk _ = String.mk _
        congr 1
        rw [escape_flatten_of_nameChars true _ (goodName_all_nameChar ht)]
        simp only [List.append_assoc, List.cons_append, List.singleton_append,
          List.nil_append]
      · simp only [List.length_cons, List.length_append]
        omega
      · exact ⟨kc, kcr ++ (attrsL (sortedAttrs a) ++ [' ', '/', '>']),
          by rw [hct, List.cons_append], hkstart⟩
      · intro rest fuel hfuel
        simp only [List.length_cons, List.length_append] at hfuel
        obtain ⟨f, rfl⟩ : ∃ f, fuel = f + 1 := ⟨fuel - 1, by omega⟩
        rw [List.cons_append, List.append_assoc, List.append_assoc]
        conv_lhs => rw [pElem]
        simp only []
        rw [if_pos trivial]
        rw [show ([' ', '/', '>'] : List Char) ++ rest = ' ' :: '/' :: '>' :: rest
          from rfl]
        rw [pName_good t ht _ (fun ch hch =>
          hnexthead ('/' :: '>' :: rest) ch (Or.inl hch))]
        simp only []
        rw [pAttrs_parse (' ' :: '/' :: '>' :: rest) '/' ('>' :: rest)
          (by rw [List.dropWhile_cons, show xmlWsChar ' ' = true from by decide,
            if_pos rfl, List.dropWhile_cons,
            show xmlWsChar '/' = false from by decide, if_neg Bool.false_ne_true])
          (Or.inl rfl) (sortedAttrs a) f []
          (goodAttrs_sorted_mem ha) (goodAttrs_sorted_nodup ha)
          (fun kv _ => List.not_mem_nil kv.1) (by omega)]
        simp only []
        rw [if_pos trivial]
    · -- the content branch
      refine ⟨'<' :: (t.toList ++ (attrsL (sortedAttrs a) ++
          ('>' :: ((tx.toList.map (escapeChar false)).flatten ++
            (S ++ ('<' :: '/' :: (t.toList ++ ['>']))))))),
        ?_, ?_, ?_, ?_⟩
      · rw [outerXml, hA, hcx]
        simp only [Option.bind_eq_bind, Option.some_bind]
        rw [if_pos (by
          show (escapeNoQ tx ++ String.mk S).length > 0
          rw [show (escapeNoQ tx ++ String.mk S).length =
            ((tx.toList.map (escapeChar false)).flatten ++ S).length from rfl]
          exact Nat.pos_of_ne_zero (fun h0 => hinner (List.length_eq_zero.mp h0)))]
        show some _ = _
        congr 1
        show String.mk _ = String.mk _
        congr 1
        rw [escape_flatten_of_nameChars true _ (goodName_all_nameChar ht)]
        simp only [List.append_assoc, List.cons_append, List.singleton_append,
          List.nil_append]
      · simp only [List.length_cons, List.length_append]
        omega
      · exact ⟨kc, kcr ++ _, by rw [hct, List.cons_append], hkstart⟩
      · intro rest fuel hfuel
        simp only [List.length_cons, List.length_append] at hfuel
        obtain ⟨f, rfl⟩ : ∃ f, fuel = f + 1 := ⟨fuel - 1, by omega⟩
        rw [List.cons_append, List.append_assoc, List.append_assoc]
        conv_lhs => rw [pElem]
        simp only []
        rw [if_pos trivial]
        rw [show ('>' :: ((tx.toList.map (escapeChar false)).flatten ++
            (S ++ ('<' :: '/' :: (t.toList ++ ['>']))))) ++ rest =
          '>' :: ((tx.toList.map (escapeChar false)).flatten ++
            (S ++ ('<' :: '/' :: (t.toList ++ '>' :: rest)))) from by
          simp only [List.cons_append, List.append_assoc, List.singleton_append,
            List.nil_append]]
        rw [pName_good t ht _ (fun ch hch =>
          hnexthead ((tx.toList.map (escapeChar false)).flatten ++
            (S ++ ('<' :: '/' :: (t.toList ++ '>' :: rest)))) ch (Or.inr hch))]
        simp only []
        rw [pAttrs_parse ('>' :: ((tx.toList.map (escapeChar false)).flatten ++
            (S ++ ('<' :: '/' :: (t.toList ++ '>' :: rest)))))
          '>' ((tx.toList.map (escapeChar false)).flatten ++
            (S ++ ('<' :: '/' :: (t.toList ++ '>' :: rest))))
          (by rw [List.dropWhile_cons, show xmlWsChar '>' = false from by decide,
            if_neg Bool.false_ne_true])
          (Or.inr rfl) (sortedAttrs a) f []
          (goodAttrs_sorted_mem ha) (goodAttrs_sorted_nodup ha)
          (fun kv _ => List.not_mem_nil kv.1) (by omega)]
        simp only []
        rw [if_neg (by decide : ¬(('>' : Char) = '/')), if_pos trivial]
        rw [hpc tx.toList ('<' :: '/' :: (t.toList ++ '>' :: rest)) f htx rfl
          (by omega)]
        simp only []
        rw [pName_good t ht _ (fun ch hch => by
          rw [← Option.some.inj hch]; decide)]
        simp only []
        rw [if_pos trivial]

theorem contentXml_roundtrip : ∀ (es : ElemList), goodListB es = true →
    ∃ s : List Char, childrenXml es = some (String.mk s) ∧
      ∀ (txt rest : List Char) (fuel : Nat),
        txt.all xmlChar = true →
        rest.take 2 = ['<', '/'] →
        (txt.map (escapeChar false)).flatten.length + s.length + 2 ≤ fuel →
        pContent fuel ((txt.map (escapeChar false)).flatten ++ (s ++ rest)) =
          some rest
  | .nil, _ => by
    refine ⟨[], rfl, ?_⟩
    intro txt rest fuel htxt hrest hfuel
    obtain ⟨lr, rfl⟩ := take_two_shape hrest
    obtain ⟨f, rfl⟩ : ∃ f, fuel = f + 1 := ⟨fuel - 1, by omega⟩
    rw [List.nil_append]
    conv_lhs => rw [pContent]
    rw [pText_escape txt f _ htxt (Or.inr ⟨'/' :: lr, rfl⟩) (by
      have := length_le_escLen false txt
      simp only [List.length_nil] at hfuel
      omega)]
    simp only []
    rw [if_pos trivial]
  | .cons e es, hgood => by
    obtain ⟨he, hes⟩ := goodListB_cons hgood
    have htl := (goodElemB_fields he).2.2.2.2
    obtain ⟨sc, hout, hsclen, ⟨c2, cs2, hshape, hc2⟩, hparse⟩ :=
      outerXml_roundtrip e he
    obtain ⟨S, hcx, hpc⟩ := contentXml_roundtrip es hes
    refine ⟨(sc ++ (e.tail.toList.map (escapeChar false)).flatten) ++ S, ?_, ?_⟩
    · rw [childrenXml, hout, hcx]
      rfl
    · intro txt rest fuel htxt hrest hfuel
      simp only [List.length_append] at hfuel
      obtain ⟨f, rfl⟩ : ∃ f, fuel = f + 1 := ⟨fuel - 1, by omega⟩
      simp only [List.append_assoc]
      conv_lhs => rw [pContent]
      rw [pText_escape txt f _ htxt (Or.inr (by
        rw [hshape]
        exact ⟨c2 :: (cs2 ++ ((e.tail.toList.map (escapeChar false)).flatten ++
          (S ++ rest))), by rw [List.cons_append, List.cons_append]⟩))
        (by
          have := length_le_escLen false txt
          omega)]
      rw [hshape, List.cons_append, List.cons_append]
      simp only []
      rw [if_neg (fun hq => (nameChar_not_special (nameStart_nameChar hc2)).2.2.2.2.2.2.2
        hq)]
      rw [show ('<' :: c2 :: (cs2 ++ ((e.tail.toList.map (escapeChar false)).flatten ++
          (S ++ rest))) : List Char) =
        sc ++ ((e.tail.toList.map (escapeChar false)).flatten ++ (S ++ rest)) from by
        rw [hshape, List.cons_append, List.cons_append]]
      rw [hparse _ f (by omega)]
      simp only []
      exact hpc e.tail.toList rest f htl hrest (by omega)
end

theorem goodElem_outerXml_accepts (e : Elem) (h : goodElemB e = true) :
    ∃ s, outerXml e = some s ∧ xmlAccepts s = true := by
  obtain ⟨sl, hout, hlen, -, hparse⟩ := outerXml_roundtrip e h
  refine ⟨String.mk sl, hout, ?_⟩
  unfold xmlAccepts
  have hp : pElem (2 * (String.mk sl).toList.length + 2) (sl ++ []) = some [] :=
    hparse [] _ (by
      rw [show (String.mk sl).toList = sl from rfl]
      omega)
  rw [List.append_nil] at hp
  rw [show (String.mk sl).toList = sl from rfl] at hp ⊢
  rw [hp]

/-! ### Goodness building blocks -/

theorem goodTextB_append {a b : String} (ha : goodTextB a = true)
    (hb : goodTextB b = true) : goodTextB (a ++ b) = true := by
  unfold goodTextB at *
  rw [show (a ++ b).toList = a.toList ++ b.toList from String.data_append a b,
    List.all_append, ha, hb]
  rfl

theorem goodElemB_mk {t : String} {a : Attrs} {s : String} {c : ElemList}
    {l : String} (ht : goodNameB t = true) (ha : goodAttrsB a = true)
    (hs : goodTextB s = true) (hc : goodListB c = true)
    (hl : goodTextB l = true) : goodElemB (.mk t a s c l) = true := by
  rw [goodElemB, ht, ha, hs, hc, hl]
  rfl

theorem goodList_append : ∀ {l : ElemList} {e : Elem}, goodListB l = true →
    goodElemB e = true → goodListB (l.append e) = true
  | .nil, e, _, he => by
    rw [show ElemList.append .nil e = .cons e .nil from rfl, goodListB, he]
    rfl
  | .cons x xs, e, hl, he => by
    rw [goodListB, Bool.and_eq_true] at hl
    rw [show ElemList.append (.cons x xs) e = .cons x (xs.append e) from rfl,
      goodListB, hl.1, goodList_append hl.2 he]
    rfl

theorem goodFrameB_fields {f : Frame} (h : goodFrameB f = true) :
    goodNameB f.tag = true ∧ goodAttrsB f.attrib = true ∧
      goodTextB f.text = true ∧ goodListB f.children = true := by
  unfold goodFrameB at h
  rw [Bool.and_eq_true, Bool.and_eq_true, Bool.and_eq_true] at h
  exact ⟨h.1.1.1, h.1.1.2, h.1.2, h.2⟩

theorem goodFrameB_mk {f : Frame} (ht : goodNameB f.tag = true)
    (ha : goodAttrsB f.attrib = true) (hx : goodTextB f.text = true)
    (hc : goodListB f.children = true) : goodFrameB f = true := by
  unfold goodFrameB
  rw [ht, ha, hx, hc]
  rfl

theorem goodElemB_toElem {f : Frame} (h : goodFrameB f = true) :
    goodElemB f.toElem = true := by
  obtain ⟨ht, ha, hx, hc⟩ := goodFrameB_fields h
  exact goodElemB_mk ht ha hx hc (by decide)

theorem goodFrame_pushChild {f g : Frame} (hf : goodFrameB f = true)
    (hg : goodFrameB g = true) : goodFrameB (pushChild f g) = true := by
  obtain ⟨hgt, hga, hgx, hgc⟩ := goodFrameB_fields hg
  exact goodFrameB_mk hgt hga hgx (goodList_append hgc (goodElemB_toElem hf))

theorem goodList_modifyLast : ∀ {l : ElemList} {f : Elem → Elem},
    goodListB l = true →
    (∀ e, goodElemB e = true → goodElemB (f e) = true) →
    goodListB (l.modifyLast f) = true
  | .nil, _, hl, _ => hl
  | .cons x .nil, f, hl, hf => by
    rw [goodListB, Bool.and_eq_true] at hl
    rw [show ElemList.modifyLast f (.cons x .nil) = .cons (f x) .nil from rfl,
      goodListB, hf x hl.1]
    rfl
  | .cons x (.cons y ys), f, hl, hf => by
    rw [goodListB, Bool.and_eq_true] at hl
    rw [show ElemList.modifyLast f (.cons x (.cons y ys)) =
      .cons x (ElemList.modifyLast f (.cons y ys)) from rfl,
      goodListB, hl.1, goodList_modifyLast hl.2 hf]
    rfl

theorem goodElem_withTail {e : Elem} {x : String} (he : goodElemB e = true)
    (hx : goodTextB x = true) : goodElemB (e.withTail x) = true := by
  cases e with
  | mk t a s c l =>
    obtain ⟨ht, ha, hs, hc, -⟩ := goodElemB_fields he
    exact goodElemB_mk ht ha hs hc hx

/-! ### Casefolding preserves XML names -/

theorem toLower_toNat (c : Char) :
    c.toLower.toNat =
      if 65 ≤ c.toNat ∧ c.toNat ≤ 90 then c.toNat + 32 else c.toNat := by
  unfold Char.toLower
  by_cases h : c.toNat ≥ 65 ∧ c.toNat ≤ 90
  · rw [if_pos h, if_pos ⟨h.1, h.2⟩]
    have hval : Nat.isValidChar (c.toNat + 32) := Or.inl (by omega)
    rw [Char.ofNat, dif_pos hval]
    rfl
  · rw [if_neg h, if_neg (fun hc => h ⟨hc.1, hc.2⟩)]

theorem toLower_nameStart {c : Char} (h : xmlNameStartChar c = true) :
    xmlNameStartChar c.toLower = true := by
  simp only [xmlNameStartChar, Bool.or_eq_true, Bool.and_eq_true,
    decide_eq_true_eq] at h ⊢
  rw [toLower_toNat]
  by_cases hr : 65 ≤ c.toNat ∧ c.toNat ≤ 90
  · rw [if_pos hr]; omega
  · rw [if_neg hr]; omega

theorem toLower_nameChar {c : Char} (h : xmlNameChar c = true) :
    xmlNameChar c.toLower = true := by
  simp only [xmlNameChar, xmlNameStartChar, Bool.or_eq_true, Bool.and_eq_true,
    decide_eq_true_eq] at h ⊢
  rw [toLower_toNat]
  by_cases hr : 65 ≤ c.toNat ∧ c.toNat ≤ 90
  · rw [if_pos hr]; omega
  · rw [if_neg hr]; omega

theorem pyLower_goodName {s : String} (h : goodNameB s = true) :
    goodNameB (pyLower s) = true := by
  obtain ⟨c, cr, hct, hstart, hrest⟩ := goodName_parts h
  unfold goodNameB pyLower
  rw [show (String.mk (s.toList.map Char.toLower)).toList =
    s.toList.map Char.toLower from rfl, hct, List.map_cons]
  simp only []
  rw [toLower_nameStart hstart, Bool.true_and, List.all_map]
  rw [show (cr.all (xmlNameChar ∘ Char.toLower)) =
    cr.all (fun x => xmlNameChar x.toLower) from rfl]
  rw [List.all_eq_true] at hrest ⊢
  intro x hx
  exact toLower_nameChar (hrest x hx)

/-! ### Dictionary operations preserve goodness -/

theorem mem_dictInsert {d : Attrs} {k : String} {v : Option String} :
    ∀ kv ∈ dictInsert d k v, kv ∈ d ∨ (kv.1 = k ∧ kv.2 = v) := by
  induction d with
  | nil =>
    intro kv hkv
    rw [dictInsert] at hkv
    rcases List.mem_cons.mp hkv with rfl | h
    · exact Or.inr ⟨rfl, rfl⟩
    · exact absurd h (by simp)
  | cons x xs ih =>
    intro kv hkv
    obtain ⟨k', v'⟩ := x
    rw [dictInsert] at hkv
    by_cases he : k' = k
    · rw [if_pos he] at hkv
      rcases List.mem_cons.mp hkv with rfl | h
      · exact Or.inr ⟨he, rfl⟩
      · exact Or.inl (List.mem_cons_of_mem _ h)
    · rw [if_neg he] at hkv
      rcases List.mem_cons.mp hkv with rfl | h
      · exact Or.inl (List.mem_cons_self _ _)
      · rcases ih kv h with h' | h'
        · exact Or.inl (List.mem_cons_of_mem _ h')
        · exact Or.inr h'

theorem mem_keys_dictInsert {d : Attrs} {k x : String} {v : Option String}
    (h : x ∈ (dictInsert d k v).map Prod.fst) :
    x ∈ d.map Prod.fst ∨ x = k := by
  obtain ⟨kv, hkv, hfst⟩ := List.mem_map.mp h
  rcases mem_dictInsert kv hkv with h' | h'
  · exact Or.inl (hfst ▸ List.mem_map_of_mem Prod.fst h')
  · exact Or.inr (hfst ▸ h'.1)

theorem keys_nodup_dictInsert {d : Attrs} {k : String} {v : Option String}
    (h : (d.map Prod.fst).Nodup) :
    ((dictInsert d k v).map Prod.fst).Nodup := by
  induction d with
  | nil => exact List.nodup_singleton k
  | cons x xs ih =>
    obtain ⟨k', v'⟩ := x
    rw [List.map_cons, List.nodup_cons] at h
    rw [dictInsert]
    by_cases he : k' = k
    · rw [if_pos he, List.map_cons, List.nodup_cons]
      exact ⟨h.1, h.2⟩
    · rw [if_neg he, List.map_cons, List.nodup_cons]
      refine ⟨?_, ih h.2⟩
      intro hmem
      rcases mem_keys_dictInsert hmem with h' | h'
      · exact h.1 h'
      · exact he h'

theorem goodAttrsB_of : ∀ {a : Attrs},
    (∀ kv ∈ a, goodNameB kv.1 = true ∧ ∃ v, kv.2 = some v ∧ goodTextB v = true) →
    (a.map Prod.fst).Nodup → goodAttrsB a = true
  | [], _, _ => rfl
  | (k, vv) :: xs, hmem, hnodup => by
    obtain ⟨hk, v, hv, hvg⟩ := hmem (k, vv) (by simp)
    rw [show ((k, vv).2 : Option String) = vv from rfl] at hv
    subst hv
    rw [List.map_cons, List.nodup_cons] at hnodup
    rw [goodAttrsB, hk, hvg]
    rw [goodAttrsB_of (fun kv h => hmem kv (by simp [h])) hnodup.2]
    have hany : (xs.any (fun kv => kv.1 = k)) = false := by
      rw [List.any_eq_false]
      intro x hx hdec
      rw [decide_eq_true_eq] at hdec
      have hx1 : x.1 ∈ xs.map Prod.fst := List.mem_map_of_mem Prod.fst hx
      rw [hdec] at hx1
      exact hnodup.1 hx1
    rw [hany]
    rfl

theorem dictInsert_good {d : Attrs} {k : String} {v : String}
    (hd : goodAttrsB d = true) (hk : goodNameB k = true)
    (hv : goodTextB v = true) : goodAttrsB (dictInsert d k (some v)) = true := by
  refine goodAttrsB_of ?_ (keys_nodup_dictInsert (goodAttrsB_nodup hd))
  intro kv hkv
  rcases mem_dictInsert kv hkv with h | h
  · exact goodAttrsB_mem hd kv h
  · exact ⟨h.1 ▸ hk, v, h.2, hv⟩

theorem elemAttrs_good {attrs : Attrs} (h : goodRawAttrs attrs) :
    goodAttrsB (elemAttrs attrs) = true := by
  unfold elemAttrs
  suffices hgen : ∀ (l : Attrs) (acc : Attrs), goodRawAttrs l →
      goodAttrsB acc = true →
      goodAttrsB (l.foldl (fun acc kv =>
        dictInsert acc (pyLower kv.1) kv.2) acc) = true by
    exact hgen attrs [] h rfl
  intro l
  induction l with
  | nil => intro acc _ hacc; exact hacc
  | cons kv rest ih =>
    intro acc hl hacc
    obtain ⟨hk, v, hv, hvg⟩ := hl kv (by simp)
    rw [List.foldl_cons, hv]
    exact ih _ (fun kv' h' => hl kv' (by simp [h']))
      (dictInsert_good hacc (pyLower_goodName hk) hvg)

theorem dictOf_good {attrs : Attrs}
    (h : ∀ kv ∈ attrs, goodNameB kv.1 = true ∧
      ∃ v, kv.2 = some v ∧ goodTextB v = true) :
    goodAttrsB (dictOf attrs) = true := by
  unfold dictOf
  suffices hgen : ∀ (l : Attrs) (acc : Attrs), goodRawAttrs l →
      goodAttrsB acc = true →
      goodAttrsB (l.foldl (fun acc (kv : String × Option String) =>
        dictInsert acc kv.1 kv.2) acc) = true by
    exact hgen attrs [] h rfl
  intro l
  induction l with
  | nil => intro acc _ hacc; exact hacc
  | cons kv rest ih =>
    intro acc hl hacc
    obtain ⟨hk, v, hv, hvg⟩ := hl kv (by simp)
    rw [List.foldl_cons, hv]
    exact ih _ (fun kv' h' => hl kv' (by simp [h']))
      (dictInsert_good hacc hk hvg)

/-- A good dictionary makes a good raw-attribute list. -/
theorem goodRawAttrs_of_goodAttrsB {a : Attrs} (h : goodAttrsB a = true) :
    goodRawAttrs a := goodAttrsB_mem h

/-! ### Stack operations preserve goodness -/

theorem formatting_els_good : ∀ t ∈ formatting_els, goodNameB t = true := by
  decide

theorem openTag_good {sk : List Frame} {t : String} {attrs : Attrs}
    (hsk : sk.all goodFrameB = true) (ht : goodNameB t = true)
    (hattrs : goodRawAttrs attrs) :
    (openTag sk t attrs).all goodFrameB = true := by
  unfold openTag
  rw [List.all_cons, hsk]
  rw [@goodFrameB_mk ⟨t, elemAttrs attrs, "", .nil⟩ ht (elemAttrs_good hattrs)
    rfl rfl]
  rfl

theorem closeTagGo_good {t : String} : ∀ {rest : List Frame} {f : Frame},
    goodFrameB f = true → rest.all goodFrameB = true →
    (closeTagGo t f rest).all goodFrameB = true := by
  intro rest
  induction rest with
  | nil =>
    intro f hf _
    rw [closeTagGo, List.all_cons, hf]
    rfl
  | cons g rs ih =>
    intro f hf hrest
    rw [List.all_cons, Bool.and_eq_true] at hrest
    rw [closeTagGo]
    split
    · rw [List.all_cons, goodFrame_pushChild hf hrest.1, hrest.2]
      rfl
    · exact ih (goodFrame_pushChild hf hrest.1) hrest.2

theorem closeTag_good {sk : List Frame} {t : String}
    (hsk : sk.all goodFrameB = true) :
    (closeTag sk t).all goodFrameB = true := by
  unfold closeTag
  match sk, hsk with
  | [], _ => rfl
  | [f], hsk => exact hsk
  | f :: g :: rest, hsk =>
    rw [List.all_cons, Bool.and_eq_true] at hsk
    exact closeTagGo_good hsk.1 hsk.2

theorem closeFmtGo_good {t : String} {attrs : Attrs} (ht : goodNameB t = true)
    (hattrs : goodRawAttrs attrs) : ∀ {rest : List Frame} {f : Frame},
    goodFrameB f = true → rest.all goodFrameB = true →
    (closeFmtGo t attrs f rest).all goodFrameB = true := by
  intro rest
  induction rest with
  | nil =>
    intro f hf _
    rw [closeFmtGo, List.all_cons, hf]
    rfl
  | cons g rs ih =>
    intro f hf hrest
    rw [List.all_cons, Bool.and_eq_true] at hrest
    obtain ⟨hft, hfa, hfx, hfc⟩ := goodFrameB_fields hf
    rw [closeFmtGo]
    split
    · rw [List.all_cons, goodFrame_pushChild hf hrest.1, hrest.2]
      rfl
    · split
      · exact openTag_good (ih (goodFrame_pushChild hf hrest.1) hrest.2) hft
          (goodRawAttrs_of_goodAttrsB hfa)
      · rw [List.all_cons]
        rw [ih hrest.1 hrest.2]
        have hformatel : goodElemB (.mk t (elemAttrs attrs) f.text f.children "")
            = true :=
          goodElemB_mk ht (elemAttrs_good hattrs) hfx hfc (by decide)
        rw [@goodFrameB_mk ⟨f.tag, f.attrib, "", ElemList.nil.append
            (.mk t (elemAttrs attrs) f.text f.children "")⟩
          hft hfa rfl (goodList_append rfl hformatel)]
        rfl

theorem closeFmt_good {sk : List Frame} {t : String} {attrs : Attrs}
    (hsk : sk.all goodFrameB = true) (ht : goodNameB t = true)
    (hattrs : goodRawAttrs attrs) :
    (closeFmt sk t attrs).all goodFrameB = true := by
  unfold closeFmt
  match sk, hsk with
  | [], _ => rfl
  | f :: rest, hsk =>
    rw [List.all_cons, Bool.and_eq_true] at hsk
    exact closeFmtGo_good ht hattrs hsk.1 hsk.2

theorem popFmtGo_good {t : String} : ∀ {rest : List Frame} {f : Frame},
    goodFrameB f = true → rest.all goodFrameB = true →
    (popFmtGo t f rest).all goodFrameB = true := by
  intro rest
  induction rest with
  | nil =>
    intro f hf _
    rw [popFmtGo, List.all_cons, hf]
    rfl
  | cons g rs ih =>
    intro f hf hrest
    rw [List.all_cons, Bool.and_eq_true] at hrest
    rw [popFmtGo]
    split
    · exact ih (goodFrame_pushChild hf hrest.1) hrest.2
    · rw [List.all_cons, List.all_cons, hf, hrest.1, hrest.2]
      rfl

theorem popFmtWhile_good {sk : List Frame} {t : String}
    (hsk : sk.all goodFrameB = true) :
    (popFmtWhile sk t).all goodFrameB = true := by
  unfold popFmtWhile
  match sk, hsk with
  | [], _ => rfl
  | f :: rest, hsk =>
    rw [List.all_cons, Bool.and_eq_true] at hsk
    exact popFmtGo_good hsk.1 hsk.2

theorem popTop_good {sk : List Frame} (hsk : sk.all goodFrameB = true) :
    (popTop sk).all goodFrameB = true := by
  unfold popTop
  match sk, hsk with
  | [], _ => rfl
  | [f], hsk => exact hsk
  | f :: g :: rest, hsk =>
    rw [List.all_cons, Bool.and_eq_true, List.all_cons, Bool.and_eq_true] at hsk
    rw [List.all_cons, goodFrame_pushChild hsk.1 hsk.2.1, hsk.2.2]
    rfl

theorem modifyRoot_good {h : Frame → Frame} {sk : List Frame}
    (hpres : ∀ f, goodFrameB f = true → goodFrameB (h f) = true)
    (hsk : sk.all goodFrameB = true) :
    (modifyRoot h sk).all goodFrameB = true := by
  unfold modifyRoot
  have hrev : sk.reverse.all goodFrameB = true := by
    rw [List.all_eq_true] at hsk ⊢
    intro f hf
    exact hsk f (List.mem_reverse.mp hf)
  match hm : sk.reverse, hrev with
  | [], _ => rfl
  | r :: rest, hrev =>
    rw [List.all_cons, Bool.and_eq_true] at hrev
    rw [List.all_eq_true]
    intro f hf
    rw [List.mem_reverse] at hf
    rcases List.mem_cons.mp hf with rfl | hf'
    · exact hpres r hrev.1
    · rw [List.all_eq_true] at hrev
      exact hrev.2 f hf'

theorem foldl_openTag_good {entries : List (String × Attrs)} :
    ∀ {sk : List Frame}, sk.all goodFrameB = true →
    (∀ p ∈ entries, goodNameB p.1 = true ∧ goodAttrsB p.2 = true) →
    (entries.foldl (fun sk f => openTag sk f.1 f.2) sk).all goodFrameB = true := by
  induction entries with
  | nil => intro sk hsk _; exact hsk
  | cons p ps ih =>
    intro sk hsk hents
    rw [List.foldl_cons]
    obtain ⟨hp1, hp2⟩ := hents p (by simp)
    exact ih (openTag_good hsk hp1 (goodRawAttrs_of_goodAttrsB hp2))
      (fun q hq => hents q (by simp [hq]))

theorem restoreMatch_mem : ∀ (ts : List String) (fs : List (String × Attrs)),
    ∀ p ∈ restoreMatch ts fs, p ∈ fs := by
  intro ts fs
  induction fs generalizing ts with
  | nil => intro p hp; rw [restoreMatch] at hp; exact absurd hp (by simp)
  | cons f fs' ih =>
    intro p hp
    rw [restoreMatch] at hp
    split at hp
    · exact hp
    · exact List.mem_cons_of_mem _ (ih _ p hp)

theorem restore_good {st : PState} (hsk : st.stack.all goodFrameB = true)
    (hfmt : st.format.all (fun p => goodNameB p.1 && goodAttrsB p.2) = true) :
    (restoreFormatStack st).stack.all goodFrameB = true := by
  unfold restoreFormatStack
  refine foldl_openTag_good hsk ?_
  intro p hp
  have hmem := restoreMatch_mem _ _ p hp
  rw [List.all_eq_true] at hfmt
  have := hfmt p hmem
  rw [Bool.and_eq_true] at this
  exact this

/-! ### The handlers preserve goodness -/

theorem goodPStateB_fields {st : PState} (h : goodPStateB st = true) :
    st.stack.all goodFrameB = true ∧
      st.format.all (fun p => goodNameB p.1 && goodAttrsB p.2) = true := by
  unfold goodPStateB at h
  rw [Bool.and_eq_true] at h
  exact h

theorem goodPStateB_of {s : PState} (h1 : s.stack.all goodFrameB = true)
    (h2 : s.format.all (fun p => goodNameB p.1 && goodAttrsB p.2) = true) :
    goodPStateB s = true := by
  unfold goodPStateB
  rw [h1, h2]
  rfl

theorem goodTok_start {t : String} {attrs : Attrs}
    (h : goodTokB (.start t attrs) = true) :
    goodNameB t = true ∧ ∀ kv ∈ attrs, goodNameB kv.1 = true ∧
      ((∃ v, kv.2 = some v ∧ goodTextB v = true) ∨ (kv.2 = none ∧ t ≠ "html")) := by
  rw [goodTokB, Bool.and_eq_true] at h
  refine ⟨h.1, ?_⟩
  intro kv hkv
  have := List.all_eq_true.mp h.2 kv hkv
  rw [Bool.and_eq_true] at this
  refine ⟨this.1, ?_⟩
  rcases hv : kv.2 with - | v
  · rw [hv] at this
    rw [decide_eq_true_eq] at this
    exact Or.inr ⟨rfl, this.2⟩
  · rw [hv] at this
    exact Or.inl ⟨v, rfl, this.2⟩

theorem handleStarttag_good {st : PState} {t : String} {attrs : Attrs}
    (hst : goodPStateB st = true) (htok : goodTokB (.start t attrs) = true) :
    goodPStateB (handleStarttag st t attrs) = true := by
  obtain ⟨hsk, hfmt⟩ := goodPStateB_fields hst
  obtain ⟨ht, hattrs⟩ := goodTok_start htok
  unfold handleStarttag
  by_cases hhtml : t = "html"
  · rw [if_pos hhtml]
    refine goodPStateB_of ?_ hfmt
    refine modifyRoot_good ?_ hsk
    intro r hr
    subst hhtml
    clear hsk hfmt hst htok
    induction attrs generalizing r with
    | nil => exact hr
    | cons kv rest ih =>
      rw [List.foldl_cons]
      obtain ⟨hk, hv⟩ := hattrs kv (by simp)
      rcases hv with ⟨v, hv, hvg⟩ | ⟨-, habs⟩
      · rw [hv]
        obtain ⟨hrt, hra, hrx, hrc⟩ := goodFrameB_fields hr
        exact ih _ (@goodFrameB_mk ⟨r.tag,
            dictInsert r.attrib (pyLower kv.1) (some v), r.text, r.children⟩
            hrt (dictInsert_good hra (pyLower_goodName hk) hvg) hrx hrc)
          (fun q hq => hattrs q (by simp [hq]))
      · exact absurd rfl habs
  · rw [if_neg hhtml]
    simp only []
    have hraw : goodRawAttrs (attrs.map (fun kv => (kv.1, some (kv.2.getD kv.1)))) := by
      intro kv' hkv'
      obtain ⟨kv, hkv, hmap⟩ := List.mem_map.mp hkv'
      obtain ⟨hk, hv⟩ := hattrs kv hkv
      rw [← hmap]
      refine ⟨hk, ?_⟩
      rcases hv with ⟨v, hv, hvg⟩ | ⟨hv, -⟩
      · rw [hv]
        exact ⟨v, rfl, hvg⟩
      · rw [hv]
        exact ⟨kv.1, rfl, goodName_goodText hk⟩
    have had : goodAttrsB (dictOf (attrs.map
        (fun kv => (kv.1, some (kv.2.getD kv.1))))) = true := dictOf_good hraw
    have h1 : (if t ∈ p_closing_els ∧ hasInScope st.stack "p" block_scope_els
        then closeTag st.stack "p" else st.stack).all goodFrameB = true := by
      split
      · exact closeTag_good hsk
      · exact hsk
    generalize hsk1 : (if t ∈ p_closing_els ∧
        hasInScope st.stack "p" block_scope_els
      then closeTag st.stack "p" else st.stack) = sk1 at h1 ⊢
    have h2 : (if t ∈ ["caption", "colgroup", "tbody", "td", "tfoot", "th",
          "thead", "tr"] ∧ hasInScope sk1 t ["table"]
        then closeTag sk1 t else sk1).all goodFrameB = true := by
      split
      · exact closeTag_good h1
      · exact h1
    generalize hsk2 : (if t ∈ ["caption", "colgroup", "tbody", "td", "tfoot",
        "th", "thead", "tr"] ∧ hasInScope sk1 t ["table"]
      then closeTag sk1 t else sk1) = sk2 at h2 ⊢
    have h3 : (if t ∈ ["dd", "dt", "li"] ∧ hasInScope sk2 t ["dl", "ol", "ul"]
        then closeTag sk2 t else sk2).all goodFrameB = true := by
      split
      · exact closeTag_good h2
      · exact h2
    generalize hsk3 : (if t ∈ ["dd", "dt", "li"] ∧
        hasInScope sk2 t ["dl", "ol", "ul"]
      then closeTag sk2 t else sk2) = sk3 at h3 ⊢
    have h4 : (if t ∈ ["optgroup", "option"] ∧ hasInScope sk3 t ["select"]
        then closeTag sk3 t else sk3).all goodFrameB = true := by
      split
      · exact closeTag_good h3
      · exact h3
    generalize hsk4 : (if t ∈ ["optgroup", "option"] ∧ hasInScope sk3 t ["select"]
      then closeTag sk3 t else sk3) = sk4 at h4 ⊢
    generalize had2 : dictOf (attrs.map (fun kv => (kv.1, some (kv.2.getD kv.1))))
      = AD at had ⊢
    have hADraw : goodRawAttrs AD := goodRawAttrs_of_goodAttrsB had
    by_cases hfm : t ∈ formatting_els
    · rw [if_pos hfm]
      refine goodPStateB_of ?_ ?_
      · have hres : (restoreFormatStack { st with stack := sk4 }).stack.all
            goodFrameB = true := restore_good h4 hfmt
        show (if t ∈ void_els
          then closeTag (openTag
            (restoreFormatStack { st with stack := sk4 }).stack t AD) t
          else openTag
            (restoreFormatStack { st with stack := sk4 }).stack t AD).all
          goodFrameB = true
        split
        · exact closeTag_good (openTag_good hres ht hADraw)
        · exact openTag_good hres ht hADraw
      · show ((restoreFormatStack { st with stack := sk4 }).format ++
          [(t, AD)]).all (fun p => goodNameB p.1 && goodAttrsB p.2) = true
        rw [List.all_append]
        rw [show (restoreFormatStack { st with stack := sk4 }).format
          = st.format from rfl]
        rw [hfmt, List.all_cons, List.all_nil]
        simp only []
        rw [ht, had]
        rfl
    · rw [if_neg hfm]
      refine goodPStateB_of ?_ ?_
      · show (if t ∈ void_els
          then closeTag (openTag sk4 t AD) t
          else openTag sk4 t AD).all goodFrameB = true
        split
        · exact closeTag_good (openTag_good h4 ht hADraw)
        · exact openTag_good h4 ht hADraw
      · exact hfmt

theorem handleEndtag_good {st : PState} {t : String}
    (hst : goodPStateB st = true) : goodPStateB (handleEndtag st t) = true := by
  obtain ⟨hsk, hfmt⟩ := goodPStateB_fields hst
  unfold handleEndtag
  by_cases hh : t = "html"
  · rw [if_pos hh]
    exact hst
  · rw [if_neg hh]
    simp only []
    have h1 : (if t = "p" ∧ ¬ hasInScope st.stack "p" block_scope_els
        then openTag st.stack "p" [] else st.stack).all goodFrameB = true := by
      split
      · exact openTag_good hsk (by decide) (fun kv hkv => absurd hkv (by simp))
      · exact hsk
    generalize hsk1 : (if t = "p" ∧ ¬ hasInScope st.stack "p" block_scope_els
      then openTag st.stack "p" [] else st.stack) = sk1 at h1 ⊢
    by_cases hli : t ∈ ["li", "dd", "dt"] ∧ ¬ hasInScope sk1 t list_scope_els
    · rw [if_pos hli]
      exact goodPStateB_of h1 hfmt
    · rw [if_neg hli]
      by_cases hf : t ∈ formatting_els
      · rw [if_pos hf]
        by_cases hmem : t ∈ st.format.map Prod.fst
        · rw [if_pos hmem]
          have htgood : goodNameB t = true := formatting_els_good t hf
          have hattrsX : goodRawAttrs
              (((st.format.reverse.find? (fun x => x.1 = t)).map Prod.snd).getD
                []) := by
            cases hfind : st.format.reverse.find? (fun x => x.1 = t) with
            | none => intro kv hkv; exact absurd hkv (by simp)
            | some p =>
              have hp : p ∈ st.format :=
                List.mem_reverse.mp (List.mem_of_find?_eq_some hfind)
              have hpg := List.all_eq_true.mp hfmt p hp
              rw [Bool.and_eq_true] at hpg
              exact goodRawAttrs_of_goodAttrsB hpg.2
          have hpw : (popFmtWhile sk1 t).all goodFrameB = true :=
            popFmtWhile_good h1
          refine goodPStateB_of ?_ ?_
          · simp only []
            split
            · split
              · split
                · exact popTop_good hpw
                · exact closeFmt_good hpw htgood hattrsX
              · exact hpw
            · exact h1
          · simp only []
            rw [List.all_eq_true] at hfmt ⊢
            intro p hp
            exact hfmt p (List.mem_reverse.mp
              (List.mem_of_mem_eraseP (List.mem_reverse.mp hp)))
        · rw [if_neg hmem]
          exact goodPStateB_of h1 hfmt
      · rw [if_neg hf]
        by_cases hsc : hasInScope sk1 t default_scope_els = true
        · rw [if_pos hsc]
          exact goodPStateB_of (closeTag_good h1) hfmt
        · rw [if_neg hsc]
          exact goodPStateB_of h1 hfmt

theorem handleData_good {st : PState} {s : String}
    (hst : goodPStateB st = true) (hs : goodTextB s = true) :
    goodPStateB (handleData st s) = true := by
  obtain ⟨hsk, hfmt⟩ := goodPStateB_fields hst
  have hres : (restoreFormatStack st).stack.all goodFrameB = true :=
    restore_good hsk hfmt
  have hresf : (restoreFormatStack st).format.all
      (fun p => goodNameB p.1 && goodAttrsB p.2) = true := hfmt
  unfold handleData
  simp only []
  split
  · exact goodPStateB_of hres hresf
  · rename_i f rest heq
    rw [heq, List.all_cons, Bool.and_eq_true] at hres
    obtain ⟨hft, hfa, hfx, hfc⟩ := goodFrameB_fields hres.1
    refine goodPStateB_of ?_ hresf
    simp only []
    rw [List.all_cons, Bool.and_eq_true]
    refine ⟨?_, hres.2⟩
    split
    · exact @goodFrameB_mk ⟨f.tag, f.attrib, f.text ++ s, f.children⟩
        hft hfa (goodTextB_append hfx hs) hfc
    · refine @goodFrameB_mk ⟨f.tag, f.attrib, f.text,
        f.children.modifyLast (fun e => e.withTail (e.tail ++ s))⟩
        hft hfa hfx (goodList_modifyLast hfc ?_)
      intro e he
      exact goodElem_withTail he
        (goodTextB_append (goodElemB_fields he).2.2.2.2 hs)

theorem feedTok_good {st : PState} {tk : Tok} (hst : goodPStateB st = true)
    (htok : goodTokB tk = true) : goodPStateB (feedTok st tk) = true := by
  cases tk with
  | start t attrs => exact handleStarttag_good hst htok
  | endtag t => exact handleEndtag_good hst
  | data s => exact handleData_good hst htok

theorem feed_good {toks : List Tok} : ∀ {st : PState},
    goodPStateB st = true → toks.all goodTokB = true →
    goodPStateB (feed st toks) = true := by
  induction toks with
  | nil => intro st hst _; exact hst
  | cons tk rest ih =>
    intro st hst htoks
    rw [List.all_cons, Bool.and_eq_true] at htoks
    rw [feed, List.foldl_cons]
    exact ih (feedTok_good hst htoks.1) htoks.2

theorem initPState_good : goodPStateB initPState = true := by decide

theorem foldStackGo_good : ∀ {rest : List Frame} {f : Frame},
    goodFrameB f = true → rest.all goodFrameB = true →
    goodFrameB (foldStackGo f rest) = true := by
  intro rest
  induction rest with
  | nil => intro f hf _; exact hf
  | cons g rs ih =>
    intro f hf hrest
    rw [List.all_cons, Bool.and_eq_true] at hrest
    rw [foldStackGo]
    exact ih (goodFrame_pushChild hf hrest.1) hrest.2

theorem foldStack_good {sk : List Frame} (h : sk.all goodFrameB = true) :
    goodFrameB (foldStack sk) = true := by
  unfold foldStack
  match sk, h with
  | [], _ => decide
  | f :: rest, h =>
    rw [List.all_cons, Bool.and_eq_true] at h
    exact foldStackGo_good h.1 h.2

theorem goodElem_withText {e : Elem} {x : String} (he : goodElemB e = true)
    (hx : goodTextB x = true) : goodElemB (e.withText x) = true := by
  cases e with
  | mk t a s c l =>
    obtain ⟨ht, ha, -, hc, hl⟩ := goodElemB_fields he
    exact goodElemB_mk ht ha hx hc hl

theorem goodElem_withChildren {e : Elem} {c : ElemList}
    (he : goodElemB e = true) (hc : goodListB c = true) :
    goodElemB (e.withChildren c) = true := by
  cases e with
  | mk t a s c0 l =>
    obtain ⟨ht, ha, hs, -, hl⟩ := goodElemB_fields he
    exact goodElemB_mk ht ha hs hc hl

theorem finish_good {st : PState} (h : st.stack.all goodFrameB = true) :
    goodElemB (finish st) = true := by
  unfold finish
  have hroot : goodElemB (foldStack st.stack).toElem = true :=
    goodElemB_toElem (foldStack_good h)
  simp only []
  split
  · split
    · refine goodElem_withChildren (goodElem_withText hroot (by decide)) ?_
      refine goodList_modifyLast
        (goodElemB_fields (goodElem_withText hroot (by decide))).2.2.2.1 ?_
      intro e he
      exact goodElem_withTail he (by decide)
    · exact goodElem_withText hroot (by decide)
  · split
    · refine goodElem_withChildren hroot ?_
      refine goodList_modifyLast (goodElemB_fields hroot).2.2.2.1 ?_
      intro e he
      exact goodElem_withTail he (by decide)
    · exact hroot

theorem goodElemB_parseTokens {toks : List Tok}
    (h : toks.all goodTokB = true) : goodElemB (parseTokens toks) = true := by
  unfold parseTokens
  exact finish_good (goodPStateB_fields (feed_good initPState_good h)).1

/-- C2 (amended): for every token stream the parse tree's root element has
tag `html`; and whenever every token is XML-good (start-tag and attribute
names are XML names, attribute values are present — in particular on
`<html>`, whose merge path stores raw `None` values that would crash
`html.escape` — and XML character data, and character data consists of XML
characters), re-serialising the parse tree via `outer_xml` succeeds and
produces a string accepted by a strict XML parser. -/
theorem c2_amended_root_html_and_wellformed (toks : List Tok) :
    (parseTokens toks).tag = "html" ∧
    (toks.all goodTokB = true →
      ∃ s, outerXml (parseTokens toks) = some s ∧ xmlAccepts s = true) :=
  ⟨parseTokens_tag toks,
   fun h => goodElem_outerXml_accepts _ (goodElemB_parseTokens h)⟩

/-- Witness for the amended C2 at a concrete good token stream. -/
theorem c2_amended_witness :
    ([Tok.start "div" [("id", some "x")], Tok.data "a&b",
      Tok.endtag "div"].all goodTokB = true)
    ∧ (parseTokens [Tok.start "div" [("id", some "x")], Tok.data "a&b",
        Tok.endtag "div"]).tag = "html"
    ∧ ∃ s, outerXml (parseTokens [Tok.start "div" [("id", some "x")],
        Tok.data "a&b", Tok.endtag "div"]) = some s ∧ xmlAccepts s = true :=
  ⟨by decide,
   (c2_amended_root_html_and_wellformed [Tok.start "div" [("id", some "x")],
     Tok.data "a&b", Tok.endtag "div"]).1,
   (c2_amended_root_html_and_wellformed [Tok.start "div" [("id", some "x")],
     Tok.data "a&b", Tok.endtag "div"]).2 (by decide)⟩

end MechanizeMini
